import Mathlib

/-!
Shallow embedding of `src/data_preparation/split_layout.py` (the layout
segmentation and canonicalization engine of HomeReportHelper) together with
the record model of `src/data_preparation/layout_objects.py`.

Python strings are modelled as Lean `String`s restricted to the ASCII
behaviour the engine relies on (`str.strip`, `str.split`, `str.isupper`,
zero-padded decimal formatting).  Python `dict`s keyed by record id are
modelled as the record list itself together with find/update/erase by id;
ids are provably unique in every reachable state, so this coincides with
object-identity mutation.  The two in-place loops of the source
(`merge_paragraphs_for_embedding_chunks` and `merge_sparse_sections`) are
written with an explicit fuel that is at least the loop variant of the
Python loop, so every function in the file is a computable structural
recursion and evaluates inside the kernel.
-/

namespace SplitLayout

/-! Python string helpers (ASCII model of `str.strip`, `str.split()`, `str.isupper`). -/

def isPySpace (c : Char) : Bool :=
  c == ' ' || c == '\t' || c == '\n' || c == '\r' || c == Char.ofNat 11 || c == Char.ofNat 12

def pyStripList (cs : List Char) : List Char :=
  ((cs.dropWhile isPySpace).reverse.dropWhile isPySpace).reverse

/-- Model of Python `str.strip()`. -/
def pyStrip (s : String) : String := String.mk (pyStripList s.toList)

def splitWsAux : List Char → List Char → List String
  | [], acc => if acc.isEmpty then [] else [String.mk acc.reverse]
  | c :: cs, acc =>
    if isPySpace c then
      if acc.isEmpty then splitWsAux cs [] else String.mk acc.reverse :: splitWsAux cs []
    else splitWsAux cs (c :: acc)

/-- Model of Python `str.split()` with no argument: split on whitespace runs,
dropping empty pieces. -/
def pySplitWs (s : String) : List String := splitWsAux s.toList []

/-- Model of Python `str.isupper()` on ASCII text: at least one cased character
and no lowercase cased character. -/
def pyIsUpper (s : String) : Bool :=
  let cased := s.toList.filter (fun c => c.isUpper || c.isLower)
  !cased.isEmpty && cased.all (·.isUpper)

/-! Decimal formatting, modelling Python `f"{n:05d}"` / `f"{n:04d}"`. -/

def digitChar (n : Nat) : Char := Char.ofNat ('0'.toNat + n)

/-- Decimal digits of `n`, most significant first; the fuel argument makes the
recursion structural, and `natDigits` always supplies enough fuel. -/
def natDigitsGo : Nat → Nat → List Char
  | 0, _ => []
  | fuel + 1, n =>
    if n < 10 then [digitChar n]
    else natDigitsGo fuel (n / 10) ++ [digitChar (n % 10)]

def natDigits (n : Nat) : List Char := natDigitsGo (n + 1) n

/-- Left-pad a digit string with zeros to a minimum width, like Python's
zero-padded format specifier. -/
def zeroPad (w : Nat) (ds : List Char) : List Char :=
  List.replicate (w - ds.length) '0' ++ ds

/-- Model of `f"par_{n:05d}"`. -/
def parId (n : Nat) : String := String.mk ('p' :: 'a' :: 'r' :: '_' :: zeroPad 5 (natDigits n))

/-- Model of `f"sec_{n:04d}"`. -/
def secIdStr (n : Nat) : String := String.mk ('s' :: 'e' :: 'c' :: '_' :: zeroPad 4 (natDigits n))

/-- Numeric value of a decimal digit string (used both by the reference parser
for `int(...)` and to prove the id renderers injective). -/
def digitsVal (ds : List Char) : Nat := ds.foldl (fun a c => a * 10 + (c.toNat - '0'.toNat)) 0

/-! Model of `sorted(set(...))` on page-number lists. -/

def insertUniqueSorted (x : Nat) : List Nat → List Nat
  | [] => [x]
  | y :: ys =>
    if x < y then x :: y :: ys
    else if x = y then y :: ys
    else y :: insertUniqueSorted x ys

/-- `sorted(set(l))`: ascending list of the distinct elements of `l`. -/
def sortedDedup (l : List Nat) : List Nat := l.foldr insertUniqueSorted []

/-! Constants of `split_layout.py`. -/

def PARAGRAPHS : String := "paragraphs"
def TABLES : String := "tables"
def HEADING_ROLES : List String := ["title", "heading"]
def MIN_EMBEDDING_CHUNK_TOKENS : Nat := 80
def MAX_EMBEDDING_CHUNK_TOKENS : Nat := 350

/-! Record model from `layout_objects.py`. -/

def PARAGRAPH_KIND_TEXT : String := "text"
def PARAGRAPH_KIND_TABLE_TEXT : String := "table_text"
def BOUNDARY_SOURCE_AZURE_LAYOUT : String := "azure_layout_section"

structure SectionRecord where
  section_id : String
  document_id : String
  section_order : Nat
  title : Option String
  summary : String := ""
  boundary_source : String := BOUNDARY_SOURCE_AZURE_LAYOUT
  pages : List Nat := []
  paragraph_ids : List String := []
  merged_from_section_ids : List String := []
  is_heading_only_original : Bool := false
  inherited_headings : List String := []
  deriving DecidableEq, Repr

structure ParagraphRecord where
  paragraph_id : String
  document_id : String
  section_id : String
  order_in_section : Nat
  kind : String
  text : String
  pages : List Nat := []
  layout_refs : List String := []
  role : Option String := none
  is_heading_like : Bool := false
  merged_from_ids : List String := []
  embedding_model : Option String := none
  embedding_vector_id : Option String := none
  token_count : Option Nat := none
  deriving DecidableEq, Repr

/-! Input model: the shape of the Azure `AnalyzeResult` that the engine reads. -/

structure BoundingRegion where
  page_number : Option Nat
  deriving DecidableEq, Repr

structure LayoutParagraph where
  content : Option String
  role : Option String
  bounding_regions : Option (List BoundingRegion)
  deriving DecidableEq, Repr

structure TableCell where
  row_index : Option Nat
  column_index : Option Nat
  content : Option String
  deriving DecidableEq, Repr

structure DocumentTable where
  cells : List TableCell
  bounding_regions : Option (List BoundingRegion)
  deriving DecidableEq, Repr

structure LayoutSection where
  elements : Option (List String)
  deriving DecidableEq, Repr

structure AnalyzeResult where
  sections : Option (List LayoutSection)
  paragraphs : Option (List LayoutParagraph)
  tables : Option (List DocumentTable)
  deriving DecidableEq, Repr

/-! Reference parser (`LayoutElementId`).  The Python class runs
`re.search(r"\/([a-z]{1,15})\/(\d{1,5})$", element_id)`: the `$` anchor
matches at the end of the string or just before a newline that is the
string's final character, and a match exists iff the text ending there is
`/` + 1..15 lowercase letters + `/` + 1..5 digits, because the runs adjacent
to the anchors are maximal.  We decode from the end of the string
accordingly, after discounting one trailing newline if present. -/

structure ParsedElementId where
  type : String
  id_as_num : Nat
  deriving DecidableEq, Repr

def isLowerAlpha (c : Char) : Bool := 'a' ≤ c && c ≤ 'z'
def isAsciiDigit (c : Char) : Bool := '0' ≤ c && c ≤ '9'

/-- Model of `LayoutElementId.__init__`; `none` models the `ValueError` raised
on a malformed reference.  A single trailing newline is dropped first, since
Python's `$` also matches just before a final newline. -/
def parseLayoutElementId (s : String) : Option ParsedElementId :=
  let rev0 := s.toList.reverse
  let rev := match rev0 with
    | '\n' :: rest => rest
    | _ => rev0
  let ds := rev.takeWhile isAsciiDigit
  let rest := rev.dropWhile isAsciiDigit
  if ds.length = 0 || 5 < ds.length then none
  else
    match rest with
    | '/' :: rest1 =>
      let ls := rest1.takeWhile isLowerAlpha
      let rest2 := rest1.dropWhile isLowerAlpha
      if ls.length = 0 || 15 < ls.length then none
      else
        match rest2 with
        | '/' :: _ => some ⟨String.mk ls.reverse, digitsVal ds.reverse⟩
        | _ => none
    | _ => none

/-! Table flattening (`LayoutProcessor.flatten_table_to_text`).  The Python
code groups cells into a `defaultdict(list)` keyed by row index (insertion
order), sorts the keys, stably sorts each row's cells by column index, joins
cells with `" | "` and rows with newlines, and strips the result. -/

def addCellToRows (rows : List (Nat × List (Nat × String))) (r : Nat) (v : Nat × String) :
    List (Nat × List (Nat × String)) :=
  match rows with
  | [] => [(r, [v])]
  | (k, vs) :: rest =>
    if k = r then (k, vs ++ [v]) :: rest else (k, vs) :: addCellToRows rest r v

def cellEntry (c : TableCell) : Nat × (Nat × String) :=
  (c.row_index.getD 0, (c.column_index.getD 0, pyStrip (c.content.getD "")))

def tableRows (t : DocumentTable) : List (Nat × List (Nat × String)) :=
  t.cells.foldl (fun acc c => addCellToRows acc (cellEntry c).1 (cellEntry c).2) []

def lookupRow (rows : List (Nat × List (Nat × String))) (k : Nat) : List (Nat × String) :=
  match rows.find? (fun e => e.1 == k) with
  | some e => e.2
  | none => []

/-- Stable insertion used to model Python's stable `sorted(..., key=lambda x: x[0])`. -/
def insertByCol (x : Nat × String) : List (Nat × String) → List (Nat × String)
  | [] => [x]
  | y :: ys => if y.1 < x.1 then y :: insertByCol x ys else x :: y :: ys

def sortByCol (l : List (Nat × String)) : List (Nat × String) := l.foldr insertByCol []

def insertNatSorted (x : Nat) : List Nat → List Nat
  | [] => [x]
  | y :: ys => if y < x then y :: insertNatSorted x ys else x :: y :: ys

/-- Model of Python `sorted` on a list of (distinct) nats. -/
def sortNat (l : List Nat) : List Nat := l.foldr insertNatSorted []

/-- Model of `LayoutProcessor.flatten_table_to_text`. -/
def flatten_table_to_text (t : DocumentTable) : String :=
  let rows := tableRows t
  let lines := (sortNat (rows.map (·.1))).map
    (fun k => String.intercalate " | " ((sortByCol (lookupRow rows k)).map (·.2)))
  pyStrip (String.intercalate "\n" lines)

/-! Token counting.  `_load_token_encoder` optionally provides a subword
tokenizer (`tiktoken`); the engine is parameterised here by that optional
encoder `enc`, and `_token_count` falls back to the whitespace word count
when it is absent. -/

/-- Model of `LayoutProcessor._token_count`. -/
def tokenCount (enc : Option (String → Nat)) (text : String) : Nat :=
  let clean := pyStrip text
  if clean = "" then 0
  else
    match enc with
    | some f => f clean
    | none => (pySplitWs clean).length

/-- Model of `LayoutProcessor._is_naturally_sized_chunk`. -/
def isNaturallySizedChunk (enc : Option (String → Nat)) (text : String) : Bool :=
  MIN_EMBEDDING_CHUNK_TOKENS ≤ tokenCount enc (pyStrip text)

/-- Model of `LayoutProcessor._join_text`. -/
def joinText (base_text append_text : String) : String :=
  if base_text = "" then append_text
  else if append_text = "" then base_text
  else base_text ++ "\n" ++ append_text

/-- Model of `LayoutProcessor._fallback_heading_like`. -/
def fallbackHeadingLike (text : String) : Bool :=
  if text == "" then false
  else if 12 < (pySplitWs text).length then false
  else pyIsUpper text

/-- Heading detection of `_paragraph_record_from_layout`: an explicit truthy
role wins, otherwise the heuristic fallback applies. -/
def headingLikeFromRole (role : Option String) (text : String) : Bool :=
  match role with
  | some r => if r == "" then fallbackHeadingLike text else HEADING_ROLES.contains r
  | none => fallbackHeadingLike text

/-- Model of `LayoutProcessor._is_body_text_paragraph`. -/
def isBodyTextParagraph (p : ParagraphRecord) : Bool :=
  p.kind == PARAGRAPH_KIND_TEXT && !p.is_heading_like

/-- Model of `LayoutProcessor._extract_pages`. -/
def extractPages (br : Option (List BoundingRegion)) : List Nat :=
  match br with
  | none => []
  | some regions => sortedDedup (regions.filterMap (·.page_number))

/-! The paragraph store.  Python keeps `self.paragraph_records` (a list) and
builds `para_map = {p.paragraph_id: p for p in self.paragraph_records}` whose
values alias the list entries.  Since paragraph ids are unique in every
reachable state, both are modelled by the insertion-ordered list itself, with
lookup / in-place update / deletion by id. -/

def storeIds (store : List ParagraphRecord) : List String :=
  store.map (·.paragraph_id)

/-- `para_map.get(pid)`. -/
def pmFind (store : List ParagraphRecord) (pid : String) : Option ParagraphRecord :=
  store.find? (fun p => p.paragraph_id == pid)

/-- In-place mutation of the record whose id is `q.paragraph_id`. -/
def pmSet (store : List ParagraphRecord) (q : ParagraphRecord) : List ParagraphRecord :=
  store.map (fun p => if p.paragraph_id == q.paragraph_id then q else p)

/-- `del para_map[pid]` (the record also disappears from the list, matching
the filter at the end of the merge pass). -/
def pmErase (store : List ParagraphRecord) (pid : String) : List ParagraphRecord :=
  store.filter (fun p => !(p.paragraph_id == pid))

/-! Raw record builder (`LayoutProcessor.build_raw_records`). -/

/-- Model of `LayoutProcessor._paragraph_record_from_layout`. -/
def paragraphRecordFromLayout (docId : String) (paras : List LayoutParagraph)
    (paragraph_idx : Nat) (pid sid : String) (order : Nat) (ref : String) :
    Option ParagraphRecord :=
  match paras.get? paragraph_idx with
  | none => none
  | some paragraph =>
    let text := pyStrip (paragraph.content.getD "")
    some { paragraph_id := pid, document_id := docId, section_id := sid,
           order_in_section := order, kind := PARAGRAPH_KIND_TEXT, text := text,
           pages := extractPages paragraph.bounding_regions, layout_refs := [ref],
           role := paragraph.role,
           is_heading_like := headingLikeFromRole paragraph.role text,
           merged_from_ids := [pid] }

/-- Model of `LayoutProcessor._paragraph_record_from_table`. -/
def paragraphRecordFromTable (docId : String) (tables : List DocumentTable)
    (table_idx : Nat) (pid sid : String) (order : Nat) (ref : String) :
    Option ParagraphRecord :=
  match tables.get? table_idx with
  | none => none
  | some table =>
    some { paragraph_id := pid, document_id := docId, section_id := sid,
           order_in_section := order, kind := PARAGRAPH_KIND_TABLE_TEXT,
           text := flatten_table_to_text table,
           pages := extractPages table.bounding_regions, layout_refs := [ref],
           role := none, is_heading_like := false, merged_from_ids := [pid] }

/-- State of the per-section element loop of `build_raw_records`: the
document-wide paragraph counter, the section record under construction, and
the paragraph records built for this section (appended to
`self.paragraph_records` in the same order). -/
structure BuildSt where
  counter : Nat
  sec : SectionRecord
  store : List ParagraphRecord
  deriving Repr

/-- One iteration of the `for element_ref in section_elements` loop. -/
def buildElementStep (docId : String) (paras : List LayoutParagraph)
    (tables : List DocumentTable) (st : BuildSt) (ref : String) : BuildSt :=
  match parseLayoutElementId ref with
  | none => st
  | some pr =>
    if !(pr.type == PARAGRAPHS || pr.type == TABLES) then st
    else
      let made :=
        if pr.type == PARAGRAPHS then
          paragraphRecordFromLayout docId paras pr.id_as_num (parId st.counter)
            st.sec.section_id (st.sec.paragraph_ids.length + 1) ref
        else
          paragraphRecordFromTable docId tables pr.id_as_num (parId st.counter)
            st.sec.section_id (st.sec.paragraph_ids.length + 1) ref
      match made with
      | none => st
      | some p =>
        { counter := st.counter + 1,
          sec := { st.sec with
            paragraph_ids := st.sec.paragraph_ids ++ [p.paragraph_id],
            pages := sortedDedup (st.sec.pages ++ p.pages),
            title := if st.sec.title.isNone && p.is_heading_like then some p.text
                     else st.sec.title },
          store := st.store ++ [p] }

/-- The fresh `SectionRecord` created at the top of the section loop body. -/
def initialSectionRecord (docId : String) (sidx : Nat) : SectionRecord :=
  { section_id := secIdStr (sidx + 1), document_id := docId,
    section_order := sidx + 1, title := none, summary := "" }

/-- The state after folding one section's element references. -/
def sectionFoldSt (docId : String) (paras : List LayoutParagraph)
    (tables : List DocumentTable) (sec : LayoutSection) (sidx counter : Nat) : BuildSt :=
  (sec.elements.getD []).foldl (buildElementStep docId paras tables)
    ⟨counter, initialSectionRecord docId sidx, []⟩

/-- The `for section_idx, section in enumerate(self.sections)` loop of
`build_raw_records`, threading the paragraph counter. -/
def buildRawAux (docId : String) (paras : List LayoutParagraph)
    (tables : List DocumentTable) :
    List LayoutSection → Nat → Nat → List SectionRecord × List ParagraphRecord
  | [], _, _ => ([], [])
  | sec :: rest, sidx, counter =>
    let st := sectionFoldSt docId paras tables sec sidx counter
    let r := buildRawAux docId paras tables rest (sidx + 1) st.counter
    (st.sec :: r.1, st.store ++ r.2)

/-- Model of `LayoutProcessor.build_raw_records` (started on a fresh
processor: empty record collections, counter 1). -/
def build_raw_records (docId : String) (layout : AnalyzeResult) :
    List SectionRecord × List ParagraphRecord :=
  buildRawAux docId (layout.paragraphs.getD []) (layout.tables.getD [])
    (layout.sections.getD []) 0 1

/-! Chunk merger (`LayoutProcessor.merge_paragraphs_for_embedding_chunks`). -/

/-- The inner `while next_idx < len(section.paragraph_ids)` absorption loop.
Given the absorbing paragraph `cur` and the ids following it in the section,
it returns the updated absorber, the store with absorbed records deleted, and
the number of following ids consumed (`next_idx - (idx + 1)` in the source). -/
def absorbLoop (enc : Option (String → Nat)) (store : List ParagraphRecord)
    (cur : ParagraphRecord) :
    List String → ParagraphRecord × List ParagraphRecord × Nat
  | [] => (cur, store, 0)
  | nid :: rest =>
    match pmFind store nid with
    | none =>
      let r := absorbLoop enc store cur rest
      (r.1, r.2.1, r.2.2 + 1)
    | some nextp =>
      if !isBodyTextParagraph nextp then (cur, store, 0)
      else
        let merged := joinText cur.text nextp.text
        if MAX_EMBEDDING_CHUNK_TOKENS < tokenCount enc merged then (cur, store, 0)
        else
          let cur' := { cur with
            text := merged,
            pages := sortedDedup (cur.pages ++ nextp.pages),
            layout_refs := cur.layout_refs ++ nextp.layout_refs,
            merged_from_ids := cur.merged_from_ids ++ nextp.merged_from_ids }
          let store' := pmErase store nid
          if isNaturallySizedChunk enc cur'.text then (cur', store', 1)
          else
            let r := absorbLoop enc store' cur' rest
            (r.1, r.2.1, r.2.2 + 1)

/-- The outer `while idx < len(section.paragraph_ids)` scan of one section,
producing the rebuilt `section_paragraph_ids` and the updated store.  The fuel
only needs to cover the length of the id list (each step consumes at least
one id), which `chunkSection` supplies. -/
def chunkSectionGo (enc : Option (String → Nat)) :
    Nat → List ParagraphRecord → List String → List String × List ParagraphRecord
  | 0, store, _ => ([], store)
  | _ + 1, store, [] => ([], store)
  | fuel + 1, store, pid :: rest =>
    match pmFind store pid with
    | none => chunkSectionGo enc fuel store rest
    | some p =>
      if !isBodyTextParagraph p then
        let r := chunkSectionGo enc fuel store rest
        (pid :: r.1, r.2)
      else if isNaturallySizedChunk enc p.text then
        let r := chunkSectionGo enc fuel store rest
        (pid :: r.1, r.2)
      else
        let a := absorbLoop enc store p rest
        let r := chunkSectionGo enc fuel (pmSet a.2.1 a.1) (rest.drop a.2.2)
        (pid :: r.1, r.2)

def chunkSection (enc : Option (String → Nat)) (store : List ParagraphRecord)
    (ids : List String) : List String × List ParagraphRecord :=
  chunkSectionGo enc ids.length store ids

/-- Model of `LayoutProcessor.merge_paragraphs_for_embedding_chunks`:
each section's id list is rebuilt in order while the shared store is threaded
through; the final `self.paragraph_records` filter keeps exactly the store. -/
def merge_paragraphs_for_embedding_chunks (enc : Option (String → Nat)) :
    List SectionRecord → List ParagraphRecord →
    List SectionRecord × List ParagraphRecord
  | [], store => ([], store)
  | s :: rest, store =>
    let c := chunkSection enc store s.paragraph_ids
    let r := merge_paragraphs_for_embedding_chunks enc rest c.2
    ({ s with paragraph_ids := c.1 } :: r.1, r.2)

/-! Section consolidator (`LayoutProcessor.merge_sparse_sections`). -/

/-- Count of surviving body-text paragraphs of a section
(`len(body_paragraphs)` in the source). -/
def sectionBodyCount (store : List ParagraphRecord) (s : SectionRecord) : Nat :=
  (s.paragraph_ids.filter (fun pid =>
    match pmFind store pid with
    | some p => isBodyTextParagraph p
    | none => false)).length

/-- The `heading_texts` list comprehension: texts of heading-like paragraphs
with truthy text, in id order. -/
def sectionHeadingTexts (store : List ParagraphRecord) (s : SectionRecord) : List String :=
  s.paragraph_ids.filterMap (fun pid =>
    match pmFind store pid with
    | some p => if p.is_heading_like && !(p.text == "") then some p.text else none
    | none => none)

/-- Python truthiness of an optional string (`if section.title:`). -/
def titleTruthy : Option String → Bool
  | none => false
  | some t => !(t == "")

def dummySection : SectionRecord :=
  { section_id := "", document_id := "", section_order := 0, title := none }

/-- The `for paragraph_id in section.paragraph_ids` reassignment loop:
migrated paragraphs take the target's section id. -/
def sectionReassign (ids : List String) (sid : String)
    (store : List ParagraphRecord) : List ParagraphRecord :=
  store.map (fun p =>
    if ids.contains p.paragraph_id then { p with section_id := sid } else p)

/-- The mutations applied to the target section when it absorbs section `s'`:
provenance, inherited headings, title backfill, the already-ordered combined
paragraph id list, and the page union. -/
def consolidatedTarget (target s' : SectionRecord) (heads newIds : List String) :
    SectionRecord :=
  { target with
    merged_from_section_ids := target.merged_from_section_ids ++ [s'.section_id],
    inherited_headings := target.inherited_headings ++ heads,
    title := if target.title.isNone && titleTruthy s'.title then s'.title
             else target.title,
    paragraph_ids := newIds,
    pages := sortedDedup (target.pages ++ s'.pages) }

/-- The `while idx < len(self.section_records)` loop of
`merge_sparse_sections`.  Every iteration either advances `idx` or removes a
section (possibly stepping `idx` back by one), so `2 * len - idx` strictly
decreases; the fuel supplied by `merge_sparse_sections` therefore never runs
out and the base case is unreachable. -/
def mergeSparseLoop :
    Nat → List SectionRecord → List ParagraphRecord → Nat →
    List SectionRecord × List ParagraphRecord
  | 0, secs, store, _ => (secs, store)
  | fuel + 1, secs, store, idx =>
    if h : idx < secs.length then
      let s := secs.get ⟨idx, h⟩
      if 1 < sectionBodyCount store s then mergeSparseLoop fuel secs store (idx + 1)
      else
        let s' := { s with is_heading_only_original := sectionBodyCount store s == 0 }
        let secs1 := secs.set idx s'
        if secs.length == 1 then mergeSparseLoop fuel secs1 store (idx + 1)
        else
          let tidx := if idx + 1 < secs.length then idx + 1 else idx - 1
          let target := secs1.getD tidx dummySection
          let heads0 := sectionHeadingTexts store s'
          let heads := if titleTruthy s'.title then heads0 ++ [s'.title.getD ""] else heads0
          let target' := consolidatedTarget target s' heads
            (if idx < tidx then s'.paragraph_ids ++ target.paragraph_ids
             else target.paragraph_ids ++ s'.paragraph_ids)
          let store' := sectionReassign s'.paragraph_ids target.section_id store
          let secs2 := (secs1.set tidx target').eraseIdx idx
          mergeSparseLoop fuel secs2 store' (if tidx < idx then idx - 1 else idx)
    else (secs, store)

/-- Model of `LayoutProcessor.merge_sparse_sections`. -/
def merge_sparse_sections (secs : List SectionRecord) (store : List ParagraphRecord) :
    List SectionRecord × List ParagraphRecord :=
  if secs.isEmpty then (secs, store)
  else mergeSparseLoop (2 * secs.length + 1) secs store 0

/-! Order finalizer (`LayoutProcessor.finalize_ordering`). -/

/-- The `for para_idx, paragraph_id in enumerate(section.paragraph_ids)` loop:
resolvable paragraphs, renumbered from the enumeration index (which also
counts dangling ids, as in the source) and reassigned to `sid`. -/
def resolveParas (store : List ParagraphRecord) (sid : String) :
    Nat → List String → List ParagraphRecord
  | _, [] => []
  | k, pid :: rest =>
    match pmFind store pid with
    | none => resolveParas store sid (k + 1) rest
    | some p =>
      { p with order_in_section := k + 1, section_id := sid } ::
        resolveParas store sid (k + 1) rest

/-- The per-section body of `finalize_ordering`, with `i` the running section
index; returns the finalized sections and the concatenated
`ordered_paragraphs`. -/
def finalizeSections (store : List ParagraphRecord) :
    Nat → List SectionRecord → List SectionRecord × List ParagraphRecord
  | _, [] => ([], [])
  | i, s :: rest =>
    let clean := s.paragraph_ids.filter (fun pid => (pmFind store pid).isSome)
    let resolved := resolveParas store s.section_id 0 s.paragraph_ids
    let s' := { s with
      section_order := i + 1,
      paragraph_ids := clean,
      pages := sortedDedup (((clean.filterMap (pmFind store)).map (·.pages)).flatten),
      title :=
        match s.title with
        | some t => some t
        | none =>
          ((clean.filterMap (pmFind store)).find?
            (fun p => p.is_heading_like && !(p.text == ""))).map (·.text) }
    let r := finalizeSections store (i + 1) rest
    (s' :: r.1, resolved ++ r.2)

/-- Model of `LayoutProcessor.finalize_ordering`. -/
def finalize_ordering (secs : List SectionRecord) (store : List ParagraphRecord) :
    List SectionRecord × List ParagraphRecord :=
  finalizeSections store 0 secs

/-- Model of `LayoutProcessor.process`. -/
def process (enc : Option (String → Nat)) (docId : String) (layout : AnalyzeResult) :
    List SectionRecord × List ParagraphRecord :=
  let b := build_raw_records docId layout
  let m := merge_paragraphs_for_embedding_chunks enc b.1 b.2
  let sp := merge_sparse_sections m.1 m.2
  finalize_ordering sp.1 sp.2

/-! Per-section summary blob (`LayoutProcessor.build_section_text_for_summary`). -/

/-- Model of `LayoutProcessor.build_section_text_for_summary`, reading the
final paragraph collection `store`. -/
def build_section_text_for_summary (store : List ParagraphRecord)
    (s : SectionRecord) : String :=
  let chunks0 : List String :=
    if s.inherited_headings.isEmpty then []
    else ["Inherited headings:\n" ++ String.intercalate "\n" s.inherited_headings]
  let body_text := s.paragraph_ids.foldl (fun acc pid =>
    match pmFind store pid with
    | none => acc
    | some p =>
      if p.is_heading_like && p.kind == PARAGRAPH_KIND_TEXT then acc
      else if !(p.text == "") then acc ++ [p.text] else acc) []
  let chunks :=
    if body_text.isEmpty then chunks0
    else chunks0 ++ [String.intercalate "\n\n" body_text]
  pyStrip (String.intercalate "\n\n" chunks)

/-- Modelled from the spec (claim C9 wording): the summary blob built from the
inherited-headings block followed by the joined text of the section's
non-heading **body** paragraphs, where body text is a paragraph that is
neither heading-like nor table-derived.  This is the claimed behaviour, to be
compared against `build_section_text_for_summary`. -/
def claimSectionSummary (store : List ParagraphRecord) (s : SectionRecord) : String :=
  let headBlocks : List String :=
    if s.inherited_headings.isEmpty then []
    else ["Inherited headings:\n" ++ String.intercalate "\n" s.inherited_headings]
  let body := s.paragraph_ids.filterMap (fun pid =>
    match pmFind store pid with
    | none => none
    | some p =>
      if !p.is_heading_like && !(p.kind == PARAGRAPH_KIND_TABLE_TEXT) && !(p.text == "")
      then some p.text else none)
  let blocks := headBlocks ++ (if body.isEmpty then [] else [String.intercalate "\n\n" body])
  pyStrip (String.intercalate "\n\n" blocks)

/-- The amended description of the summary blob, matching the code: only
heading-like `text` paragraphs are skipped, so table-derived text is part of
the body. -/
def amendedSectionSummary (store : List ParagraphRecord) (s : SectionRecord) : String :=
  let headBlocks : List String :=
    if s.inherited_headings.isEmpty then []
    else ["Inherited headings:\n" ++ String.intercalate "\n" s.inherited_headings]
  let body := s.paragraph_ids.filterMap (fun pid =>
    match pmFind store pid with
    | none => none
    | some p =>
      if !(p.is_heading_like && p.kind == PARAGRAPH_KIND_TEXT) && !(p.text == "")
      then some p.text else none)
  let blocks := headBlocks ++ (if body.isEmpty then [] else [String.intercalate "\n\n" body])
  pyStrip (String.intercalate "\n\n" blocks)

/-! Concrete inputs used by counterexamples and scenario theorems. -/

/-- A layout with one section holding a single short text paragraph. -/
def c1Layout : AnalyzeResult :=
  { sections := some [⟨some ["/paragraphs/0"]⟩],
    paragraphs := some [⟨some "hello world", none, none⟩],
    tables := none }

/-- A layout with zero sections. -/
def c2EmptyLayout : AnalyzeResult :=
  { sections := some [], paragraphs := some [⟨some "orphan", none, none⟩], tables := none }

def c7Text1 : String := String.intercalate " " (List.replicate 20 "alpha")
def c7Text2 : String := String.intercalate " " (List.replicate 30 "beta")
def c7Text3 : String := String.intercalate " " (List.replicate 40 "gamma")

/-- One section with three consecutive body-text paragraphs of 20, 30 and 40
whitespace tokens. -/
def c7Layout : AnalyzeResult :=
  { sections := some [⟨some ["/paragraphs/0", "/paragraphs/1", "/paragraphs/2"]⟩],
    paragraphs := some [⟨some c7Text1, none, none⟩, ⟨some c7Text2, none, none⟩,
      ⟨some c7Text3, none, none⟩],
    tables := none }

/-- One section whose only element is a table reference. -/
def c9Layout : AnalyzeResult :=
  { sections := some [⟨some ["/tables/0"]⟩],
    paragraphs := none,
    tables := some [⟨[⟨some 0, some 0, some "A"⟩, ⟨some 0, some 1, some "B"⟩,
      ⟨some 1, some 0, some "C"⟩], none⟩] }

/-- The table of the C6 flattening scenario: cells `(0,0,"A")`, `(0,1,"B")`,
`(1,0,"C")`. -/
def c6Table : DocumentTable :=
  ⟨[⟨some 0, some 0, some "A"⟩, ⟨some 0, some 1, some "B"⟩, ⟨some 1, some 0, some "C"⟩], none⟩

/-- Modelled from the spec (claim C6 wording): flatten a table by taking the
distinct row indices in ascending order, for each row the cells with that row
index stably ordered by column index, joining cell texts with `" | "` and
rows with newlines.  To be compared against `flatten_table_to_text`. -/
def specFlattenTable (t : DocumentTable) : String :=
  let rowKeys := sortedDedup (t.cells.map (fun c => (cellEntry c).1))
  let lines := rowKeys.map (fun r =>
    let rowCells := (t.cells.filter (fun c => (cellEntry c).1 == r)).map (fun c => (cellEntry c).2)
    String.intercalate " | " ((sortByCol rowCells).map (·.2)))
  pyStrip (String.intercalate "\n" lines)

/-- Modelled from the spec (claim C5 wording): a reference is well-formed
when it ends, at the very end of the string, in `/` + 1..15 lowercase ASCII
letters + `/` + 1..5 decimal digits.  The claim calls every other reference
malformed and skipped.  To be compared with `parseLayoutElementId`, whose `$`
anchor also tolerates a single trailing newline. -/
def claimWellFormedRef (s : String) : Bool :=
  let rev := s.toList.reverse
  let ds := rev.takeWhile isAsciiDigit
  let rest := rev.dropWhile isAsciiDigit
  if ds.length = 0 || 5 < ds.length then false
  else
    match rest with
    | '/' :: rest1 =>
      let ls := rest1.takeWhile isLowerAlpha
      let rest2 := rest1.dropWhile isLowerAlpha
      if ls.length = 0 || 15 < ls.length then false
      else
        match rest2 with
        | '/' :: _ => true
        | _ => false
    | _ => false

/-- A reference is bad in the sense the code acts on: either the parser
rejects it (`ValueError` in `LayoutElementId`) or it parses with an index out
of range of the corresponding source list. -/
def badElementRef (paras : List LayoutParagraph) (tables : List DocumentTable)
    (ref : String) : Prop :=
  parseLayoutElementId ref = none ∨
    ∃ pr, parseLayoutElementId ref = some pr ∧
      ((pr.type = PARAGRAPHS ∧ paras.length ≤ pr.id_as_num) ∨
       (pr.type = TABLES ∧ tables.length ≤ pr.id_as_num))

def c4Text : String := String.intercalate " " (List.replicate 80 "word")

/-- One section with two body-text paragraphs of 80 whitespace tokens each:
already normalized, so `process` should merge nothing. -/
def c4Layout : AnalyzeResult :=
  { sections := some [⟨some ["/paragraphs/0", "/paragraphs/1"]⟩],
    paragraphs := some [⟨some c4Text, none, none⟩, ⟨some c4Text, none, none⟩],
    tables := none }

/-- The paragraphs of a section, fetched from a paragraph collection in
`paragraph_ids` order. -/
def sectionParagraphsInOrder (paras : List ParagraphRecord) (s : SectionRecord) :
    List ParagraphRecord :=
  s.paragraph_ids.filterMap (pmFind paras)

/-- Provenance invariant on a paragraph store: any id recorded in a merge
trail, other than the owner's own id, no longer names a record of the store. -/
def ProvOK (store : List ParagraphRecord) : Prop :=
  ∀ p ∈ store, ∀ id ∈ p.merged_from_ids,
    id ≠ p.paragraph_id → id ∉ storeIds store

/-- Provenance invariant on a section list: trail ids name no live section. -/
def TrailOK (secs : List SectionRecord) : Prop :=
  ∀ s ∈ secs, ∀ id ∈ s.merged_from_section_ids,
    id ∉ secs.map (·.section_id)

/-- Size invariant of merged chunks: a paragraph that absorbed at least one
other paragraph stays within the maximum embedding token budget. -/
def ChunkBound (enc : Option (String → Nat)) (p : ParagraphRecord) : Prop :=
  1 < p.merged_from_ids.length →
    tokenCount enc p.text ≤ MAX_EMBEDDING_CHUNK_TOKENS

/-- The bundle of invariants that the section-consolidation loop preserves:
unique paragraph ids, the section lists jointly partitioning the store in
order, unique section ids, and the provenance and size invariants. -/
def SparseInv (enc : Option (String → Nat)) (secs : List SectionRecord)
    (store : List ParagraphRecord) : Prop :=
  (storeIds store).Nodup ∧
  (secs.map (·.paragraph_ids)).flatten = storeIds store ∧
  (secs.map (·.section_id)).Nodup ∧
  TrailOK secs ∧
  ProvOK store ∧
  (∀ p ∈ store, ChunkBound enc p)

/-- Invariant of the element loop of `build_raw_records`: the counter tracks
the store length, the store ids are the contiguous `parId` range starting at
the initial counter `c0`, the section's id list mirrors the store, and every
fresh record carries singleton provenance. -/
def BuildStOK (c0 : Nat) (sid : String) (st : BuildSt) : Prop :=
  st.counter = c0 + st.store.length ∧
  storeIds st.store = (List.range' c0 st.store.length).map parId ∧
  st.sec.paragraph_ids = storeIds st.store ∧
  st.sec.section_id = sid ∧
  (∀ p ∈ st.store, p.merged_from_ids = [p.paragraph_id]) ∧
  st.sec.merged_from_section_ids = [] ∧
  st.sec.inherited_headings = []

set_option maxRecDepth 100000

/-! Generic lemmas about the paragraph store operations. -/

theorem pmFind_property {store : List ParagraphRecord} {pid : String} {p : ParagraphRecord}
    (h : pmFind store pid = some p) : p ∈ store ∧ p.paragraph_id = pid := by
  refine ⟨List.mem_of_find?_eq_some h, ?_⟩
  have hp := List.find?_some h
  simpa using hp

theorem mem_storeIds {store : List ParagraphRecord} {pid : String} :
    pid ∈ storeIds store ↔ ∃ p ∈ store, p.paragraph_id = pid := by
  simp [storeIds, List.mem_map, eq_comm]

theorem pmFind_eq_none_iff {store : List ParagraphRecord} {pid : String} :
    pmFind store pid = none ↔ pid ∉ storeIds store := by
  rw [pmFind, List.find?_eq_none, mem_storeIds]
  push_neg
  constructor
  · intro h p hp
    have := h p hp
    simpa using this
  · intro h p hp
    simpa using h p hp

theorem pmFind_isSome_of_mem {store : List ParagraphRecord} {pid : String}
    (h : pid ∈ storeIds store) : (pmFind store pid).isSome := by
  cases hf : pmFind store pid with
  | none => exact absurd h (pmFind_eq_none_iff.mp hf)
  | some p => rfl

theorem storeIds_append (a b : List ParagraphRecord) :
    storeIds (a ++ b) = storeIds a ++ storeIds b := by
  simp [storeIds]

theorem storeIds_pmErase (store : List ParagraphRecord) (x : String) :
    storeIds (pmErase store x) = (storeIds store).filter (fun y => !(y == x)) := by
  induction store with
  | nil => rfl
  | cons p rest ih =>
    by_cases h : p.paragraph_id = x
    · simp [pmErase, storeIds, List.filter_cons, h] at ih ⊢
      simpa [pmErase, storeIds] using ih
    · simp [pmErase, storeIds, List.filter_cons, h] at ih ⊢
      simpa [pmErase, storeIds] using ih

theorem storeIds_pmSet (store : List ParagraphRecord) (q : ParagraphRecord) :
    storeIds (pmSet store q) = storeIds store := by
  induction store with
  | nil => rfl
  | cons p rest ih =>
    by_cases h : p.paragraph_id = q.paragraph_id
    · simp [pmSet, storeIds, h] at ih ⊢
      simpa [pmSet, storeIds] using ih
    · simp [pmSet, storeIds, h] at ih ⊢
      simpa [pmSet, storeIds] using ih

theorem mem_pmSet {store : List ParagraphRecord} {q p : ParagraphRecord}
    (h : p ∈ pmSet store q) : p = q ∨ p ∈ store := by
  rcases List.mem_map.mp h with ⟨r, hr, hrp⟩
  by_cases hc : r.paragraph_id = q.paragraph_id
  · simp [hc] at hrp
    exact Or.inl hrp.symm
  · simp [hc] at hrp
    exact Or.inr (hrp ▸ hr)

theorem mem_pmErase {store : List ParagraphRecord} {x : String} {p : ParagraphRecord}
    (h : p ∈ pmErase store x) : p ∈ store :=
  List.mem_of_mem_filter h

theorem filter_ne_of_not_mem {x : String} {l : List String} (h : x ∉ l) :
    l.filter (fun y => !(y == x)) = l := by
  rw [List.filter_eq_self]
  intro y hy
  have hne : y ≠ x := fun e => h (e ▸ hy)
  simp [hne]

theorem pmFind_append_right {A B : List ParagraphRecord} {pid : String}
    (h : pid ∉ storeIds A) : pmFind (A ++ B) pid = pmFind B pid := by
  have hA : pmFind A pid = none := pmFind_eq_none_iff.mpr h
  rw [pmFind, List.find?_append]
  rw [pmFind] at hA
  simp [hA, pmFind]

theorem pmFind_append_left {A B : List ParagraphRecord} {pid : String} {p : ParagraphRecord}
    (h : pmFind A pid = some p) : pmFind (A ++ B) pid = some p := by
  rw [pmFind, List.find?_append]
  rw [pmFind] at h
  simp [h]

theorem pmFind_cons_self {p : ParagraphRecord} {rest : List ParagraphRecord} {pid : String}
    (h : p.paragraph_id = pid) : pmFind (p :: rest) pid = some p := by
  simp [pmFind, List.find?_cons, h]

theorem pmFind_cons_ne {p : ParagraphRecord} {rest : List ParagraphRecord} {pid : String}
    (h : p.paragraph_id ≠ pid) : pmFind (p :: rest) pid = pmFind rest pid := by
  simp [pmFind, List.find?_cons, h]

/-! List surgery lemmas used for the index-based section consolidation loop. -/

theorem set_at_append {α : Type} (l1 : List α) (a : α) (l2 : List α) (v : α) :
    (l1 ++ a :: l2).set l1.length v = l1 ++ v :: l2 := by
  induction l1 with
  | nil => rfl
  | cons x xs ih => simp [List.set, ih]

theorem getD_at_append {α : Type} (l1 : List α) (a : α) (l2 : List α) (d : α) :
    (l1 ++ a :: l2).getD l1.length d = a := by
  induction l1 with
  | nil => rfl
  | cons x xs ih => simpa using ih

theorem eraseIdx_at_append {α : Type} (l1 : List α) (a : α) (l2 : List α) :
    (l1 ++ a :: l2).eraseIdx l1.length = l1 ++ l2 := by
  induction l1 with
  | nil => rfl
  | cons x xs ih => simp [List.eraseIdx, ih]

theorem get_at_append {α : Type} (l1 : List α) (a : α) (l2 : List α)
    (h : l1.length < (l1 ++ a :: l2).length) :
    (l1 ++ a :: l2).get ⟨l1.length, h⟩ = a := by
  induction l1 with
  | nil => rfl
  | cons x xs ih =>
    have h2 : xs.length < (xs ++ a :: l2).length := by simp
    simpa using ih h2

/-! Injectivity of the id renderers `parId` and `secIdStr`. -/

theorem digitsVal_append_singleton (ds : List Char) (c : Char) :
    digitsVal (ds ++ [c]) = digitsVal ds * 10 + (c.toNat - '0'.toNat) := by
  simp [digitsVal, List.foldl_append]

theorem digitChar_toNat {d : Nat} (h : d < 10) : (digitChar d).toNat = 48 + d := by
  interval_cases d <;> decide

theorem digitsVal_natDigitsGo : ∀ fuel n, n < fuel → digitsVal (natDigitsGo fuel n) = n := by
  intro fuel
  induction fuel with
  | zero => exact fun n hn => absurd hn (Nat.not_lt_zero n)
  | succ f ih =>
    intro n hn
    by_cases h : n < 10
    · have h48 : '0'.toNat = 48 := by decide
      simp only [natDigitsGo, if_pos h, digitsVal, List.foldl_cons, List.foldl_nil]
      rw [digitChar_toNat h, h48]
      omega
    · simp only [natDigitsGo, if_neg h]
      rw [digitsVal_append_singleton]
      have hdiv : n / 10 < n := Nat.div_lt_self (by omega) (by omega)
      rw [ih (n / 10) (by omega)]
      rw [digitChar_toNat (Nat.mod_lt n (by omega))]
      have : '0'.toNat = 48 := by decide
      rw [this]
      omega

theorem digitsVal_natDigits (n : Nat) : digitsVal (natDigits n) = n :=
  digitsVal_natDigitsGo (n + 1) n (Nat.lt_succ_self n)

theorem digitsVal_replicate_zero (k : Nat) (ds : List Char) :
    digitsVal (List.replicate k '0' ++ ds) = digitsVal ds := by
  induction k with
  | zero => rfl
  | succ m ih =>
    simp only [List.replicate_succ, List.cons_append, digitsVal, List.foldl_cons]
    have h0 : (0 : Nat) * 10 + ('0'.toNat - '0'.toNat) = 0 := by decide
    rw [h0]
    exact ih

theorem digitsVal_zeroPad (w : Nat) (ds : List Char) :
    digitsVal (zeroPad w ds) = digitsVal ds :=
  digitsVal_replicate_zero _ ds

theorem parId_injective : Function.Injective parId := by
  intro m n h
  have hd : zeroPad 5 (natDigits m) = zeroPad 5 (natDigits n) := by
    have hdata := congrArg String.data h
    simpa [parId] using hdata
  have hv := congrArg digitsVal hd
  rwa [digitsVal_zeroPad, digitsVal_zeroPad, digitsVal_natDigits, digitsVal_natDigits] at hv

theorem secIdStr_injective : Function.Injective secIdStr := by
  intro m n h
  have hd : zeroPad 4 (natDigits m) = zeroPad 4 (natDigits n) := by
    have hdata := congrArg String.data h
    simpa [secIdStr] using hdata
  have hv := congrArg digitsVal hd
  rwa [digitsVal_zeroPad, digitsVal_zeroPad, digitsVal_natDigits, digitsVal_natDigits] at hv

/-! Invariants of the raw record builder. -/

theorem paragraphRecordFromLayout_props {docId : String} {paras : List LayoutParagraph}
    {idx : Nat} {pid sid : String} {order : Nat} {ref : String} {p : ParagraphRecord}
    (h : paragraphRecordFromLayout docId paras idx pid sid order ref = some p) :
    p.paragraph_id = pid ∧ p.merged_from_ids = [pid] := by
  unfold paragraphRecordFromLayout at h
  cases hg : paras.get? idx with
  | none => rw [hg] at h; cases h
  | some q =>
    rw [hg] at h
    injection h with h
    subst h
    exact ⟨rfl, rfl⟩

theorem paragraphRecordFromTable_props {docId : String} {tables : List DocumentTable}
    {idx : Nat} {pid sid : String} {order : Nat} {ref : String} {p : ParagraphRecord}
    (h : paragraphRecordFromTable docId tables idx pid sid order ref = some p) :
    p.paragraph_id = pid ∧ p.merged_from_ids = [pid] := by
  unfold paragraphRecordFromTable at h
  cases hg : tables.get? idx with
  | none => rw [hg] at h; cases h
  | some q =>
    rw [hg] at h
    injection h with h
    subst h
    exact ⟨rfl, rfl⟩

theorem buildElementStep_inv {docId : String} {paras : List LayoutParagraph}
    {tables : List DocumentTable} {c0 : Nat} {sid : String} {st : BuildSt} {ref : String}
    (h : BuildStOK c0 sid st) :
    BuildStOK c0 sid (buildElementStep docId paras tables st ref) := by
  obtain ⟨hc, hids, hmirror, hsid, hmfi, htrail, hinh⟩ := h
  cases hp : parseLayoutElementId ref with
  | none =>
    simp only [buildElementStep, hp]
    exact ⟨hc, hids, hmirror, hsid, hmfi, htrail, hinh⟩
  | some pr =>
    simp only [buildElementStep, hp]
    by_cases ht : (pr.type == PARAGRAPHS || pr.type == TABLES) = true
    · rw [ht]
      simp only [Bool.not_true, Bool.false_eq_true, if_false]
      have hmk : ∀ p : ParagraphRecord,
          (if pr.type == PARAGRAPHS then
            paragraphRecordFromLayout docId paras pr.id_as_num (parId st.counter)
              st.sec.section_id (st.sec.paragraph_ids.length + 1) ref
          else
            paragraphRecordFromTable docId tables pr.id_as_num (parId st.counter)
              st.sec.section_id (st.sec.paragraph_ids.length + 1) ref) = some p →
          p.paragraph_id = parId st.counter ∧ p.merged_from_ids = [parId st.counter] := by
        intro p hmade
        by_cases hk : (pr.type == PARAGRAPHS) = true
        · rw [if_pos hk] at hmade
          exact paragraphRecordFromLayout_props hmade
        · rw [if_neg hk] at hmade
          exact paragraphRecordFromTable_props hmade
      cases hmadeE : (if pr.type == PARAGRAPHS then
          paragraphRecordFromLayout docId paras pr.id_as_num (parId st.counter)
            st.sec.section_id (st.sec.paragraph_ids.length + 1) ref
        else
          paragraphRecordFromTable docId tables pr.id_as_num (parId st.counter)
            st.sec.section_id (st.sec.paragraph_ids.length + 1) ref) with
      | none => exact ⟨hc, hids, hmirror, hsid, hmfi, htrail, hinh⟩
      | some p =>
        obtain ⟨hpid, hpmfi⟩ := hmk p hmadeE
        refine ⟨?_, ?_, ?_, hsid, ?_, htrail, hinh⟩
        · simp
          omega
        · simp only [storeIds, List.map_append, List.map_cons, List.map_nil, List.length_append,
            List.length_cons, List.length_nil]
          rw [hpid, hc]
          rw [show st.store.length + (0 + 1) = st.store.length + 1 by omega]
          rw [List.range'_concat]
          rw [List.map_append]
          simp only [List.map_cons, List.map_nil]
          rw [← hids]
          simp [storeIds]
        · simp only [storeIds, List.map_append, List.map_cons, List.map_nil]
          rw [hmirror]
          simp [storeIds]
        · intro q hq
          rcases List.mem_append.mp hq with hq1 | hq2
          · exact hmfi q hq1
          · rcases List.mem_singleton.mp hq2 with rfl
            rw [hpmfi, hpid]
    · rw [Bool.not_eq_true] at ht
      rw [ht]
      simp only [Bool.not_false, if_true]
      exact ⟨hc, hids, hmirror, hsid, hmfi, htrail, hinh⟩

theorem buildFold_inv {docId : String} {paras : List LayoutParagraph}
    {tables : List DocumentTable} {c0 : Nat} {sid : String} :
    ∀ (elems : List String) (st : BuildSt), BuildStOK c0 sid st →
      BuildStOK c0 sid (elems.foldl (buildElementStep docId paras tables) st) := by
  intro elems
  induction elems with
  | nil => exact fun st h => h
  | cons e rest ih =>
    intro st h
    exact ih _ (buildElementStep_inv h)

theorem buildRawAux_inv (docId : String) (paras : List LayoutParagraph)
    (tables : List DocumentTable) :
    ∀ (sects : List LayoutSection) (sidx c0 : Nat),
      storeIds (buildRawAux docId paras tables sects sidx c0).2 =
        (List.range' c0 (buildRawAux docId paras tables sects sidx c0).2.length).map parId ∧
      ((buildRawAux docId paras tables sects sidx c0).1.map (·.paragraph_ids)).flatten =
        storeIds (buildRawAux docId paras tables sects sidx c0).2 ∧
      (buildRawAux docId paras tables sects sidx c0).1.map (·.section_id) =
        (List.range' (sidx + 1) (buildRawAux docId paras tables sects sidx c0).1.length).map
          secIdStr ∧
      (buildRawAux docId paras tables sects sidx c0).1.length = sects.length ∧
      (∀ p ∈ (buildRawAux docId paras tables sects sidx c0).2,
        p.merged_from_ids = [p.paragraph_id]) ∧
      (∀ s ∈ (buildRawAux docId paras tables sects sidx c0).1,
        s.merged_from_section_ids = [] ∧ s.inherited_headings = []) := by
  intro sects
  induction sects with
  | nil =>
    intro sidx c0
    refine ⟨rfl, rfl, rfl, rfl, ?_, ?_⟩
    · intro p hp; cases hp
    · intro s hs; cases hs
  | cons sec rest ih =>
    intro sidx c0
    have hinit : BuildStOK c0 (secIdStr (sidx + 1))
        (⟨c0, initialSectionRecord docId sidx, []⟩ : BuildSt) := by
      refine ⟨by simp, rfl, rfl, rfl, ?_, rfl, rfl⟩
      intro p hp; cases hp
    have hst : BuildStOK c0 (secIdStr (sidx + 1))
        (sectionFoldSt docId paras tables sec sidx c0) :=
      buildFold_inv (sec.elements.getD []) _ hinit
    obtain ⟨hc, hids, hmirror, hsid, hmfi, htrail, hinh⟩ := hst
    obtain ⟨ih1, ih2, ih3, ih4, ih5, ih6⟩ :=
      ih (sidx + 1) (sectionFoldSt docId paras tables sec sidx c0).counter
    rw [hc] at ih1 ih2 ih3 ih4 ih5 ih6
    simp only [buildRawAux]
    rw [hc]
    refine ⟨?_, ?_, ?_, ?_, ?_, ?_⟩
    · rw [storeIds_append, hids, ih1, ← List.map_append]
      congr 1
      have hr := List.range'_append c0
        (sectionFoldSt docId paras tables sec sidx c0).store.length
        (buildRawAux docId paras tables rest (sidx + 1)
          (c0 + (sectionFoldSt docId paras tables sec sidx c0).store.length)).2.length 1
      simp only [Nat.one_mul] at hr
      rw [hr]
      congr 1
      simp
      omega
    · simp only [List.map_cons, List.flatten_cons]
      rw [storeIds_append, hmirror, ih2]
    · simp only [List.map_cons, List.length_cons]
      rw [hsid, ih3, List.range'_succ]
      simp
    · simpa using ih4
    · intro p hp
      rcases List.mem_append.mp hp with h1 | h2
      · exact hmfi p h1
      · exact ih5 p h2
    · intro s hs
      rcases List.mem_cons.mp hs with rfl | h2
      · exact ⟨htrail, hinh⟩
      · exact ih6 s h2

theorem build_ids_eq (docId : String) (layout : AnalyzeResult) :
    storeIds (build_raw_records docId layout).2 =
      (List.range' 1 (build_raw_records docId layout).2.length).map parId :=
  (buildRawAux_inv docId (layout.paragraphs.getD []) (layout.tables.getD [])
    (layout.sections.getD []) 0 1).1

theorem build_flatten_eq (docId : String) (layout : AnalyzeResult) :
    ((build_raw_records docId layout).1.map (·.paragraph_ids)).flatten =
      storeIds (build_raw_records docId layout).2 :=
  (buildRawAux_inv docId (layout.paragraphs.getD []) (layout.tables.getD [])
    (layout.sections.getD []) 0 1).2.1

theorem build_sids_eq (docId : String) (layout : AnalyzeResult) :
    (build_raw_records docId layout).1.map (·.section_id) =
      (List.range' 1 (build_raw_records docId layout).1.length).map secIdStr :=
  (buildRawAux_inv docId (layout.paragraphs.getD []) (layout.tables.getD [])
    (layout.sections.getD []) 0 1).2.2.1

theorem build_sections_length (docId : String) (layout : AnalyzeResult) :
    (build_raw_records docId layout).1.length = (layout.sections.getD []).length :=
  (buildRawAux_inv docId (layout.paragraphs.getD []) (layout.tables.getD [])
    (layout.sections.getD []) 0 1).2.2.2.1

theorem build_mfi_singleton (docId : String) (layout : AnalyzeResult) :
    ∀ p ∈ (build_raw_records docId layout).2, p.merged_from_ids = [p.paragraph_id] :=
  (buildRawAux_inv docId (layout.paragraphs.getD []) (layout.tables.getD [])
    (layout.sections.getD []) 0 1).2.2.2.2.1

theorem build_section_trails (docId : String) (layout : AnalyzeResult) :
    ∀ s ∈ (build_raw_records docId layout).1,
      s.merged_from_section_ids = [] ∧ s.inherited_headings = [] :=
  (buildRawAux_inv docId (layout.paragraphs.getD []) (layout.tables.getD [])
    (layout.sections.getD []) 0 1).2.2.2.2.2

theorem build_ids_nodup (docId : String) (layout : AnalyzeResult) :
    (storeIds (build_raw_records docId layout).2).Nodup := by
  rw [build_ids_eq]
  exact List.Nodup.map parId_injective (List.nodup_range' 1 _)

theorem build_sids_nodup (docId : String) (layout : AnalyzeResult) :
    ((build_raw_records docId layout).1.map (·.section_id)).Nodup := by
  rw [build_sids_eq]
  exact List.Nodup.map secIdStr_injective (List.nodup_range' 1 _)

/-! Lemmas about the absorption loop of the chunk merger. -/

theorem nodup_middle_not_mem {x : String} {A C : List String}
    (h : (A ++ x :: C).Nodup) : x ∉ A ∧ x ∉ C := by
  rw [List.nodup_append] at h
  obtain ⟨_, hxc, hdisj⟩ := h
  rw [List.nodup_cons] at hxc
  refine ⟨fun hxA => ?_, hxc.1⟩
  exact (hdisj hxA) (List.mem_cons_self x C)

theorem erase_middle {x : String} {A C : List String} (hA : x ∉ A) (hC : x ∉ C) :
    (A ++ x :: C).filter (fun y => !(y == x)) = A ++ C := by
  rw [List.filter_append, filter_ne_of_not_mem hA, List.filter_cons]
  simp [filter_ne_of_not_mem hC]

theorem absorbLoop_mem (enc : Option (String → Nat)) :
    ∀ (rest : List String) (store : List ParagraphRecord) (cur : ParagraphRecord)
      (p : ParagraphRecord), p ∈ (absorbLoop enc store cur rest).2.1 → p ∈ store := by
  intro rest
  induction rest with
  | nil =>
    intro store cur p hp
    simpa [absorbLoop] using hp
  | cons nid rest ih =>
    intro store cur p hp
    cases hf : pmFind store nid with
    | none =>
      simp only [absorbLoop, hf] at hp
      exact ih store cur p hp
    | some nextp =>
      simp only [absorbLoop, hf] at hp
      by_cases hb : (!isBodyTextParagraph nextp) = true
      · rw [if_pos hb] at hp
        exact hp
      · rw [if_neg hb] at hp
        by_cases hm : MAX_EMBEDDING_CHUNK_TOKENS <
            tokenCount enc (joinText cur.text nextp.text)
        · rw [if_pos hm] at hp
          exact hp
        · rw [if_neg hm] at hp
          by_cases hn : isNaturallySizedChunk enc (joinText cur.text nextp.text) = true
          · rw [if_pos hn] at hp
            exact mem_pmErase hp
          · rw [if_neg hn] at hp
            exact mem_pmErase (ih (pmErase store nid) _ p hp)

theorem absorbLoop_pid (enc : Option (String → Nat)) :
    ∀ (rest : List String) (store : List ParagraphRecord) (cur : ParagraphRecord),
      ((absorbLoop enc store cur rest).1).paragraph_id = cur.paragraph_id := by
  intro rest
  induction rest with
  | nil => intro store cur; rfl
  | cons nid rest ih =>
    intro store cur
    cases hf : pmFind store nid with
    | none =>
      simp only [absorbLoop, hf]
      exact ih store cur
    | some nextp =>
      simp only [absorbLoop, hf]
      by_cases hb : (!isBodyTextParagraph nextp) = true
      · rw [if_pos hb]
      · rw [if_neg hb]
        by_cases hm : MAX_EMBEDDING_CHUNK_TOKENS <
            tokenCount enc (joinText cur.text nextp.text)
        · rw [if_pos hm]
        · rw [if_neg hm]
          by_cases hn : isNaturallySizedChunk enc (joinText cur.text nextp.text) = true
          · rw [if_pos hn]
          · rw [if_neg hn]
            exact ih (pmErase store nid) _

theorem absorbLoop_align (enc : Option (String → Nat)) :
    ∀ (rest : List String) (store : List ParagraphRecord) (cur : ParagraphRecord)
      (A B : List String),
      (storeIds store).Nodup → storeIds store = A ++ (rest ++ B) →
      storeIds (absorbLoop enc store cur rest).2.1 =
        A ++ (rest.drop (absorbLoop enc store cur rest).2.2 ++ B) ∧
      (absorbLoop enc store cur rest).2.2 ≤ rest.length ∧
      (storeIds (absorbLoop enc store cur rest).2.1).Nodup := by
  intro rest
  induction rest with
  | nil =>
    intro store cur A B hnd heq
    refine ⟨by simpa [absorbLoop] using heq, by simp [absorbLoop], by simpa [absorbLoop] using hnd⟩
  | cons nid rest ih =>
    intro store cur A B hnd heq
    have heq' : storeIds store = A ++ (nid :: (rest ++ B)) := by simpa using heq
    have hmem : nid ∈ storeIds store := by rw [heq']; simp
    obtain ⟨nextp, hf⟩ := Option.isSome_iff_exists.mp (pmFind_isSome_of_mem hmem)
    have hnotmem := nodup_middle_not_mem (heq' ▸ hnd)
    have herase : storeIds (pmErase store nid) = A ++ (rest ++ B) := by
      rw [storeIds_pmErase, heq']
      exact erase_middle hnotmem.1 hnotmem.2
    have hnd' : (storeIds (pmErase store nid)).Nodup := by
      rw [storeIds_pmErase]
      exact (List.filter_sublist _).nodup hnd
    simp only [absorbLoop, hf]
    by_cases hb : (!isBodyTextParagraph nextp) = true
    · rw [if_pos hb]
      exact ⟨by simpa using heq, by simp, hnd⟩
    · rw [if_neg hb]
      by_cases hm : MAX_EMBEDDING_CHUNK_TOKENS <
          tokenCount enc (joinText cur.text nextp.text)
      · rw [if_pos hm]
        exact ⟨by simpa using heq, by simp, hnd⟩
      · rw [if_neg hm]
        by_cases hn : isNaturallySizedChunk enc (joinText cur.text nextp.text) = true
        · rw [if_pos hn]
          refine ⟨by simpa using herase, by simp, hnd'⟩
        · rw [if_neg hn]
          obtain ⟨ih1, ih2, ih3⟩ := ih (pmErase store nid)
            { cur with
              text := joinText cur.text nextp.text,
              pages := sortedDedup (cur.pages ++ nextp.pages),
              layout_refs := cur.layout_refs ++ nextp.layout_refs,
              merged_from_ids := cur.merged_from_ids ++ nextp.merged_from_ids }
            A B hnd' herase
          refine ⟨?_, by simpa using Nat.succ_le_succ ih2, ih3⟩
          simpa [List.drop_succ_cons] using ih1

theorem ProvOK_of_sub {store store' : List ParagraphRecord}
    (hmem : ∀ p ∈ store', p ∈ store)
    (hids : ∀ x ∈ storeIds store', x ∈ storeIds store)
    (h : ProvOK store) : ProvOK store' := by
  intro p hp id hid hne hin
  exact h p (hmem p hp) id hid hne (hids id hin)

theorem storeIds_pmErase_sub {store : List ParagraphRecord} {x : String} :
    ∀ y ∈ storeIds (pmErase store x), y ∈ storeIds store := by
  rw [storeIds_pmErase]
  exact fun y hy => List.mem_of_mem_filter hy

theorem not_mem_storeIds_pmErase {store : List ParagraphRecord} {x : String} :
    x ∉ storeIds (pmErase store x) := by
  rw [storeIds_pmErase]
  intro h
  have := List.of_mem_filter h
  simp at this

theorem absorbLoop_prov (enc : Option (String → Nat)) :
    ∀ (rest : List String) (store : List ParagraphRecord) (cur : ParagraphRecord),
      ProvOK store →
      (∀ id ∈ cur.merged_from_ids, id ≠ cur.paragraph_id → id ∉ storeIds store) →
      ProvOK (absorbLoop enc store cur rest).2.1 ∧
      (∀ id ∈ (absorbLoop enc store cur rest).1.merged_from_ids,
        id ≠ cur.paragraph_id → id ∉ storeIds (absorbLoop enc store cur rest).2.1) ∧
      (∀ x ∈ storeIds (absorbLoop enc store cur rest).2.1, x ∈ storeIds store) := by
  intro rest
  induction rest with
  | nil =>
    intro store cur hp hcur
    exact ⟨hp, hcur, fun x hx => hx⟩
  | cons nid rest ih =>
    intro store cur hp hcur
    cases hf : pmFind store nid with
    | none =>
      simp only [absorbLoop, hf]
      exact ih store cur hp hcur
    | some nextp =>
      obtain ⟨hnmem, hnpid⟩ := pmFind_property hf
      simp only [absorbLoop, hf]
      by_cases hb : (!isBodyTextParagraph nextp) = true
      · rw [if_pos hb]
        exact ⟨hp, hcur, fun x hx => hx⟩
      · rw [if_neg hb]
        by_cases hm : MAX_EMBEDDING_CHUNK_TOKENS <
            tokenCount enc (joinText cur.text nextp.text)
        · rw [if_pos hm]
          exact ⟨hp, hcur, fun x hx => hx⟩
        · rw [if_neg hm]
          have hp' : ProvOK (pmErase store nid) :=
            ProvOK_of_sub (fun p h => mem_pmErase h) (fun x h => storeIds_pmErase_sub x h) hp
          have hcur' : ∀ id ∈ cur.merged_from_ids ++ nextp.merged_from_ids,
              id ≠ cur.paragraph_id → id ∉ storeIds (pmErase store nid) := by
            intro id hid hne hin
            rcases List.mem_append.mp hid with h1 | h2
            · exact hcur id h1 hne (storeIds_pmErase_sub id hin)
            · by_cases hq : id = nextp.paragraph_id
              · rw [hq, hnpid] at hin
                exact not_mem_storeIds_pmErase hin
              · exact hp nextp hnmem id h2 hq (storeIds_pmErase_sub id hin)
          by_cases hn : isNaturallySizedChunk enc (joinText cur.text nextp.text) = true
          · rw [if_pos hn]
            exact ⟨hp', hcur', fun x hx => storeIds_pmErase_sub x hx⟩
          · rw [if_neg hn]
            obtain ⟨ih1, ih2, ih3⟩ := ih (pmErase store nid)
              { cur with
                text := joinText cur.text nextp.text,
                pages := sortedDedup (cur.pages ++ nextp.pages),
                layout_refs := cur.layout_refs ++ nextp.layout_refs,
                merged_from_ids := cur.merged_from_ids ++ nextp.merged_from_ids }
              hp' hcur'
            exact ⟨ih1, ih2, fun x hx => storeIds_pmErase_sub x (ih3 x hx)⟩

theorem absorbLoop_bound (enc : Option (String → Nat)) :
    ∀ (rest : List String) (store : List ParagraphRecord) (cur : ParagraphRecord),
      (∀ p ∈ store, ChunkBound enc p) → ChunkBound enc cur →
      (∀ p ∈ (absorbLoop enc store cur rest).2.1, ChunkBound enc p) ∧
      ChunkBound enc (absorbLoop enc store cur rest).1 := by
  intro rest
  induction rest with
  | nil => exact fun store cur hs hc => ⟨hs, hc⟩
  | cons nid rest ih =>
    intro store cur hs hc
    cases hf : pmFind store nid with
    | none =>
      simp only [absorbLoop, hf]
      exact ih store cur hs hc
    | some nextp =>
      simp only [absorbLoop, hf]
      by_cases hb : (!isBodyTextParagraph nextp) = true
      · rw [if_pos hb]
        exact ⟨hs, hc⟩
      · rw [if_neg hb]
        by_cases hm : MAX_EMBEDDING_CHUNK_TOKENS <
            tokenCount enc (joinText cur.text nextp.text)
        · rw [if_pos hm]
          exact ⟨hs, hc⟩
        · rw [if_neg hm]
          have hs' : ∀ p ∈ pmErase store nid, ChunkBound enc p :=
            fun p h => hs p (mem_pmErase h)
          have hc' : ChunkBound enc
              { cur with
                text := joinText cur.text nextp.text,
                pages := sortedDedup (cur.pages ++ nextp.pages),
                layout_refs := cur.layout_refs ++ nextp.layout_refs,
                merged_from_ids := cur.merged_from_ids ++ nextp.merged_from_ids } :=
            fun _ => Nat.le_of_not_lt hm
          by_cases hn : isNaturallySizedChunk enc (joinText cur.text nextp.text) = true
          · rw [if_pos hn]
            exact ⟨hs', hc'⟩
          · rw [if_neg hn]
            exact ih (pmErase store nid) _ hs' hc'

/-! Lemmas about the per-section scan of the chunk merger. -/

theorem chunkSectionGo_align (enc : Option (String → Nat)) :
    ∀ (fuel : Nat) (ids : List String) (store : List ParagraphRecord) (A B : List String),
      ids.length ≤ fuel →
      (storeIds store).Nodup → storeIds store = A ++ (ids ++ B) →
      storeIds (chunkSectionGo enc fuel store ids).2 =
        A ++ ((chunkSectionGo enc fuel store ids).1 ++ B) ∧
      (chunkSectionGo enc fuel store ids).1.Sublist ids ∧
      (storeIds (chunkSectionGo enc fuel store ids).2).Nodup := by
  intro fuel
  induction fuel with
  | zero =>
    intro ids store A B hfuel hnd heq
    have : ids = [] := List.length_eq_zero.mp (Nat.le_zero.mp hfuel)
    subst this
    exact ⟨by simpa [chunkSectionGo] using heq, by simp [chunkSectionGo],
      by simpa [chunkSectionGo] using hnd⟩
  | succ f ih =>
    intro ids store A B hfuel hnd heq
    cases ids with
    | nil =>
      exact ⟨by simpa [chunkSectionGo] using heq, by simp [chunkSectionGo],
        by simpa [chunkSectionGo] using hnd⟩
    | cons pid rest =>
      have hmem : pid ∈ storeIds store := by rw [heq]; simp
      obtain ⟨p, hf⟩ := Option.isSome_iff_exists.mp (pmFind_isSome_of_mem hmem)
      have heq' : storeIds store = (A ++ [pid]) ++ (rest ++ B) := by
        simpa using heq
      have hfuel' : rest.length ≤ f := by simpa using hfuel
      simp only [chunkSectionGo, hf]
      by_cases hb : (!isBodyTextParagraph p) = true
      · rw [if_pos hb]
        obtain ⟨k1, k2, k3⟩ := ih rest store (A ++ [pid]) B hfuel' hnd heq'
        exact ⟨by simpa using k1, List.Sublist.cons₂ pid k2, k3⟩
      · rw [if_neg hb]
        by_cases hns : isNaturallySizedChunk enc p.text = true
        · rw [if_pos hns]
          obtain ⟨k1, k2, k3⟩ := ih rest store (A ++ [pid]) B hfuel' hnd heq'
          exact ⟨by simpa using k1, List.Sublist.cons₂ pid k2, k3⟩
        · rw [if_neg hns]
          obtain ⟨a1, a2, a3⟩ := absorbLoop_align enc rest store p (A ++ [pid]) B hnd heq'
          have hset : storeIds (pmSet (absorbLoop enc store p rest).2.1
              (absorbLoop enc store p rest).1) =
              storeIds (absorbLoop enc store p rest).2.1 := storeIds_pmSet _ _
          have hfuel'' : (rest.drop (absorbLoop enc store p rest).2.2).length ≤ f := by
            rw [List.length_drop]
            omega
          obtain ⟨k1, k2, k3⟩ := ih (rest.drop (absorbLoop enc store p rest).2.2)
            (pmSet (absorbLoop enc store p rest).2.1 (absorbLoop enc store p rest).1)
            (A ++ [pid]) B hfuel'' (by rw [hset]; exact a3) (by rw [hset]; exact a1)
          refine ⟨by simpa using k1, ?_, k3⟩
          exact List.Sublist.cons₂ pid
            (k2.trans (List.drop_sublist _ _))

theorem chunkSectionGo_bound (enc : Option (String → Nat)) :
    ∀ (fuel : Nat) (ids : List String) (store : List ParagraphRecord),
      (∀ p ∈ store, ChunkBound enc p) →
      ∀ p ∈ (chunkSectionGo enc fuel store ids).2, ChunkBound enc p := by
  intro fuel
  induction fuel with
  | zero => exact fun ids store hs => hs
  | succ f ih =>
    intro ids store hs
    cases ids with
    | nil => exact hs
    | cons pid rest =>
      cases hf : pmFind store pid with
      | none =>
        simp only [chunkSectionGo, hf]
        exact ih rest store hs
      | some p =>
        obtain ⟨hpmem, hppid⟩ := pmFind_property hf
        simp only [chunkSectionGo, hf]
        by_cases hb : (!isBodyTextParagraph p) = true
        · rw [if_pos hb]
          exact ih rest store hs
        · rw [if_neg hb]
          by_cases hns : isNaturallySizedChunk enc p.text = true
          · rw [if_pos hns]
            exact ih rest store hs
          · rw [if_neg hns]
            obtain ⟨b1, b2⟩ := absorbLoop_bound enc rest store p hs (hs p hpmem)
            refine ih _ _ ?_
            intro q hq
            rcases mem_pmSet hq with rfl | hqs
            · exact b2
            · exact b1 q hqs

theorem chunkSectionGo_prov (enc : Option (String → Nat)) :
    ∀ (fuel : Nat) (ids : List String) (store : List ParagraphRecord),
      ProvOK store →
      ProvOK (chunkSectionGo enc fuel store ids).2 ∧
      (∀ x ∈ storeIds (chunkSectionGo enc fuel store ids).2, x ∈ storeIds store) := by
  intro fuel
  induction fuel with
  | zero => exact fun ids store hs => ⟨hs, fun x hx => hx⟩
  | succ f ih =>
    intro ids store hs
    cases ids with
    | nil => exact ⟨hs, fun x hx => hx⟩
    | cons pid rest =>
      cases hf : pmFind store pid with
      | none =>
        simp only [chunkSectionGo, hf]
        exact ih rest store hs
      | some p =>
        obtain ⟨hpmem, hppid⟩ := pmFind_property hf
        simp only [chunkSectionGo, hf]
        by_cases hb : (!isBodyTextParagraph p) = true
        · rw [if_pos hb]
          exact ih rest store hs
        · rw [if_neg hb]
          by_cases hns : isNaturallySizedChunk enc p.text = true
          · rw [if_pos hns]
            exact ih rest store hs
          · rw [if_neg hns]
            obtain ⟨a1, a2, a3⟩ := absorbLoop_prov enc rest store p hs (hs p hpmem)
            have hSetProv : ProvOK (pmSet (absorbLoop enc store p rest).2.1
                (absorbLoop enc store p rest).1) := by
              intro r hr id hid hne hin
              rw [storeIds_pmSet] at hin
              rcases mem_pmSet hr with rfl | hrs
              · rw [absorbLoop_pid] at hne
                exact a2 id hid hne hin
              · exact a1 r hrs id hid hne hin
            obtain ⟨k1, k2⟩ := ih (rest.drop (absorbLoop enc store p rest).2.2)
              (pmSet (absorbLoop enc store p rest).2.1 (absorbLoop enc store p rest).1)
              hSetProv
            refine ⟨k1, ?_⟩
            intro x hx
            have := k2 x hx
            rw [storeIds_pmSet] at this
            exact a3 x this

theorem chunkSectionGo_identity (enc : Option (String → Nat)) :
    ∀ (fuel : Nat) (ids : List String) (store : List ParagraphRecord) (A B : List String),
      ids.length ≤ fuel →
      storeIds store = A ++ (ids ++ B) →
      (∀ p ∈ store, isBodyTextParagraph p = true → isNaturallySizedChunk enc p.text = true) →
      chunkSectionGo enc fuel store ids = (ids, store) := by
  intro fuel
  induction fuel with
  | zero =>
    intro ids store A B hfuel heq hnat
    have : ids = [] := List.length_eq_zero.mp (Nat.le_zero.mp hfuel)
    subst this
    rfl
  | succ f ih =>
    intro ids store A B hfuel heq hnat
    cases ids with
    | nil => rfl
    | cons pid rest =>
      have hmem : pid ∈ storeIds store := by rw [heq]; simp
      obtain ⟨p, hf⟩ := Option.isSome_iff_exists.mp (pmFind_isSome_of_mem hmem)
      obtain ⟨hpmem, hppid⟩ := pmFind_property hf
      have heq' : storeIds store = (A ++ [pid]) ++ (rest ++ B) := by simpa using heq
      have hfuel' : rest.length ≤ f := by simpa using hfuel
      have hrec : chunkSectionGo enc f store rest = (rest, store) :=
        ih rest store (A ++ [pid]) B hfuel' heq' hnat
      simp only [chunkSectionGo, hf]
      by_cases hb : (!isBodyTextParagraph p) = true
      · rw [if_pos hb, hrec]
      · rw [if_neg hb]
        have hbody : isBodyTextParagraph p = true := by
          rcases Bool.eq_false_or_eq_true (isBodyTextParagraph p) with h | h
          · exact h
          · exact absurd (by simp [h]) hb
        rw [if_pos (hnat p hpmem hbody), hrec]

/-! Lemmas about the whole chunk-merge pass. -/

theorem mergePass_length (enc : Option (String → Nat)) :
    ∀ (secs : List SectionRecord) (store : List ParagraphRecord),
      (merge_paragraphs_for_embedding_chunks enc secs store).1.length = secs.length := by
  intro secs
  induction secs with
  | nil => intro store; rfl
  | cons s rest ih =>
    intro store
    simp only [merge_paragraphs_for_embedding_chunks, List.length_cons]
    rw [ih]

theorem mergePass_fields (enc : Option (String → Nat)) :
    ∀ (secs : List SectionRecord) (store : List ParagraphRecord),
      (merge_paragraphs_for_embedding_chunks enc secs store).1.map (·.section_id) =
        secs.map (·.section_id) ∧
      (merge_paragraphs_for_embedding_chunks enc secs store).1.map
        (·.merged_from_section_ids) = secs.map (·.merged_from_section_ids) ∧
      (merge_paragraphs_for_embedding_chunks enc secs store).1.map
        (·.inherited_headings) = secs.map (·.inherited_headings) := by
  intro secs
  induction secs with
  | nil => intro store; exact ⟨rfl, rfl, rfl⟩
  | cons s rest ih =>
    intro store
    obtain ⟨i1, i2, i3⟩ := ih (chunkSection enc store s.paragraph_ids).2
    simp only [merge_paragraphs_for_embedding_chunks, List.map_cons]
    exact ⟨by rw [i1], by rw [i2], by rw [i3]⟩

theorem mergePass_align (enc : Option (String → Nat)) :
    ∀ (secs : List SectionRecord) (store : List ParagraphRecord) (A : List String),
      (storeIds store).Nodup →
      storeIds store = A ++ (secs.map (·.paragraph_ids)).flatten →
      storeIds (merge_paragraphs_for_embedding_chunks enc secs store).2 =
        A ++ ((merge_paragraphs_for_embedding_chunks enc secs store).1.map
          (·.paragraph_ids)).flatten ∧
      (storeIds (merge_paragraphs_for_embedding_chunks enc secs store).2).Nodup := by
  intro secs
  induction secs with
  | nil =>
    intro store A hnd heq
    exact ⟨by simpa [merge_paragraphs_for_embedding_chunks] using heq,
      by simpa [merge_paragraphs_for_embedding_chunks] using hnd⟩
  | cons s rest ih =>
    intro store A hnd heq
    have heq1 : storeIds store =
        A ++ (s.paragraph_ids ++ (rest.map (·.paragraph_ids)).flatten) := by
      simpa using heq
    obtain ⟨c1, c2, c3⟩ := chunkSectionGo_align enc s.paragraph_ids.length
      s.paragraph_ids store A ((rest.map (·.paragraph_ids)).flatten)
      (Nat.le_refl _) hnd heq1
    have heq2 : storeIds (chunkSection enc store s.paragraph_ids).2 =
        (A ++ (chunkSection enc store s.paragraph_ids).1) ++
          (rest.map (·.paragraph_ids)).flatten := by
      simpa [chunkSection] using c1
    obtain ⟨k1, k2⟩ := ih (chunkSection enc store s.paragraph_ids).2
      (A ++ (chunkSection enc store s.paragraph_ids).1) (by simpa [chunkSection] using c3) heq2
    refine ⟨?_, k2⟩
    simp only [merge_paragraphs_for_embedding_chunks, List.map_cons, List.flatten_cons]
    rw [k1]
    simp

theorem mergePass_bound (enc : Option (String → Nat)) :
    ∀ (secs : List SectionRecord) (store : List ParagraphRecord),
      (∀ p ∈ store, ChunkBound enc p) →
      ∀ p ∈ (merge_paragraphs_for_embedding_chunks enc secs store).2, ChunkBound enc p := by
  intro secs
  induction secs with
  | nil => exact fun store hs => hs
  | cons s rest ih =>
    intro store hs
    exact ih (chunkSection enc store s.paragraph_ids).2
      (chunkSectionGo_bound enc s.paragraph_ids.length s.paragraph_ids store hs)

theorem mergePass_prov (enc : Option (String → Nat)) :
    ∀ (secs : List SectionRecord) (store : List ParagraphRecord),
      ProvOK store →
      ProvOK (merge_paragraphs_for_embedding_chunks enc secs store).2 := by
  intro secs
  induction secs with
  | nil => exact fun store hs => hs
  | cons s rest ih =>
    intro store hs
    exact ih (chunkSection enc store s.paragraph_ids).2
      (chunkSectionGo_prov enc s.paragraph_ids.length s.paragraph_ids store hs).1

theorem mergePass_identity (enc : Option (String → Nat)) :
    ∀ (secs : List SectionRecord) (store : List ParagraphRecord) (A : List String),
      (storeIds store).Nodup →
      storeIds store = A ++ (secs.map (·.paragraph_ids)).flatten →
      (∀ p ∈ store, isBodyTextParagraph p = true → isNaturallySizedChunk enc p.text = true) →
      merge_paragraphs_for_embedding_chunks enc secs store = (secs, store) := by
  intro secs
  induction secs with
  | nil => intro store A hnd heq hnat; rfl
  | cons s rest ih =>
    intro store A hnd heq hnat
    have heq1 : storeIds store =
        A ++ (s.paragraph_ids ++ (rest.map (·.paragraph_ids)).flatten) := by
      simpa using heq
    have hcs : chunkSection enc store s.paragraph_ids = (s.paragraph_ids, store) := by
      rw [chunkSection]
      exact chunkSectionGo_identity enc s.paragraph_ids.length s.paragraph_ids store
        A ((rest.map (·.paragraph_ids)).flatten) (Nat.le_refl _) heq1 hnat
    have heq2 : storeIds store =
        (A ++ s.paragraph_ids) ++ (rest.map (·.paragraph_ids)).flatten := by
      simpa using heq1
    have hrec := ih store (A ++ s.paragraph_ids) hnd heq2 hnat
    simp only [merge_paragraphs_for_embedding_chunks, hcs, hrec]

/-! Lemmas about the section consolidation loop. -/

theorem list_decomp {α : Type} (l : List α) (i : Nat) (h : i < l.length) :
    l = l.take i ++ l.get ⟨i, h⟩ :: l.drop (i + 1) := by
  conv_lhs => rw [← List.take_append_drop i l]
  rw [List.drop_eq_getElem_cons h]
  rfl

theorem storeIds_sectionReassign (ids : List String) (sid : String)
    (store : List ParagraphRecord) :
    storeIds (sectionReassign ids sid store) = storeIds store := by
  induction store with
  | nil => rfl
  | cons p rest ih =>
    simp only [sectionReassign, storeIds, List.map_cons] at ih ⊢
    have hd : (if ids.contains p.paragraph_id then { p with section_id := sid }
        else p).paragraph_id = p.paragraph_id := by
      split <;> rfl
    rw [hd, ih]

theorem mem_sectionReassign {ids : List String} {sid : String}
    {store : List ParagraphRecord} {q : ParagraphRecord}
    (h : q ∈ sectionReassign ids sid store) :
    ∃ p ∈ store, q.paragraph_id = p.paragraph_id ∧
      q.merged_from_ids = p.merged_from_ids ∧ q.text = p.text := by
  rcases List.mem_map.mp h with ⟨p, hp, hq⟩
  refine ⟨p, hp, ?_⟩
  subst hq
  split <;> exact ⟨rfl, rfl, rfl⟩

theorem ProvOK_sectionReassign {ids : List String} {sid : String}
    {store : List ParagraphRecord} (h : ProvOK store) :
    ProvOK (sectionReassign ids sid store) := by
  intro q hq id hid hne hin
  obtain ⟨p, hp, hqp, hqm, _⟩ := mem_sectionReassign hq
  rw [storeIds_sectionReassign] at hin
  rw [hqm] at hid
  rw [hqp] at hne
  exact h p hp id hid hne hin

theorem bound_sectionReassign {enc : Option (String → Nat)} {ids : List String}
    {sid : String} {store : List ParagraphRecord}
    (h : ∀ p ∈ store, ChunkBound enc p) :
    ∀ q ∈ sectionReassign ids sid store, ChunkBound enc q := by
  intro q hq
  obtain ⟨p, hp, _, hqm, hqt⟩ := mem_sectionReassign hq
  intro hlen
  rw [hqm] at hlen
  rw [hqt]
  exact h p hp hlen

theorem SparseInv_set_flag (enc : Option (String → Nat)) (P Q : List SectionRecord)
    (s : SectionRecord) (b : Bool) (store : List ParagraphRecord)
    (h : SparseInv enc (P ++ s :: Q) store) :
    SparseInv enc (P ++ { s with is_heading_only_original := b } :: Q) store := by
  obtain ⟨h1, h2, h3, h4, h5, h6⟩ := h
  refine ⟨h1, by simpa using h2, by simpa using h3, ?_, h5, h6⟩
  intro sec hsec id hid
  have hmap : (P ++ { s with is_heading_only_original := b } :: Q).map (·.section_id) =
      (P ++ s :: Q).map (·.section_id) := by simp
  rw [hmap]
  rcases List.mem_append.mp hsec with hP | hsQ
  · exact h4 sec (List.mem_append.mpr (Or.inl hP)) id hid
  · rcases List.mem_cons.mp hsQ with rfl | hQ
    · exact h4 s (by simp) id (by simpa using hid)
    · exact h4 sec (by simp [hQ]) id hid

theorem SparseInv_merge_fwd (enc : Option (String → Nat))
    (P Q : List SectionRecord) (s t t' : SectionRecord)
    (store store' : List ParagraphRecord)
    (hsid : t'.section_id = t.section_id)
    (htrail : t'.merged_from_section_ids = t.merged_from_section_ids ++ [s.section_id])
    (hids : t'.paragraph_ids = s.paragraph_ids ++ t.paragraph_ids)
    (hstoreIds : storeIds store' = storeIds store)
    (hprov : ProvOK store')
    (hbound : ∀ p ∈ store', ChunkBound enc p)
    (hinv : SparseInv enc (P ++ s :: t :: Q) store) :
    SparseInv enc (P ++ t' :: Q) store' := by
  obtain ⟨h1, h2, h3, h4, h5, h6⟩ := hinv
  have hmapN : (P ++ t' :: Q).map (·.section_id) =
      P.map (·.section_id) ++ t.section_id :: Q.map (·.section_id) := by
    simp [hsid]
  have hmapO : (P ++ s :: t :: Q).map (·.section_id) =
      P.map (·.section_id) ++ s.section_id :: t.section_id :: Q.map (·.section_id) := by
    simp
  have hsubN : ((P ++ t' :: Q).map (·.section_id)).Sublist
      ((P ++ s :: t :: Q).map (·.section_id)) := by
    rw [hmapN, hmapO]
    exact List.Sublist.append_left (List.Sublist.cons s.section_id (List.Sublist.refl _)) _
  have hnotmem : s.section_id ∉ (P ++ t' :: Q).map (·.section_id) := by
    rw [hmapO] at h3
    obtain ⟨hnP, hnC⟩ := nodup_middle_not_mem h3
    rw [hmapN]
    intro hc
    rcases List.mem_append.mp hc with hc1 | hc2
    · exact hnP hc1
    · exact hnC hc2
  refine ⟨by rw [hstoreIds]; exact h1, ?_, hsubN.nodup h3, ?_, hprov, hbound⟩
  · rw [hstoreIds, ← h2]
    simp [hids]
  · intro sec hsec id hid
    have hsecmem : ∀ x ∈ (P ++ t' :: Q).map (·.section_id),
        x ∈ (P ++ s :: t :: Q).map (·.section_id) :=
      fun x hx => hsubN.subset hx
    rcases List.mem_append.mp hsec with hP | htQ
    · intro hc
      exact h4 sec (by simp [hP]) id hid (hsecmem _ hc)
    · rcases List.mem_cons.mp htQ with rfl | hQ
      · rw [htrail] at hid
        rcases List.mem_append.mp hid with hidt | hids2
        · intro hc
          exact h4 t (by simp) id hidt (hsecmem _ hc)
        · rcases List.mem_singleton.mp hids2 with rfl
          exact hnotmem
      · intro hc
        exact h4 sec (by simp [hQ]) id hid (hsecmem _ hc)

theorem SparseInv_merge_bwd (enc : Option (String → Nat))
    (P Q : List SectionRecord) (s t t' : SectionRecord)
    (store store' : List ParagraphRecord)
    (hsid : t'.section_id = t.section_id)
    (htrail : t'.merged_from_section_ids = t.merged_from_section_ids ++ [s.section_id])
    (hids : t'.paragraph_ids = t.paragraph_ids ++ s.paragraph_ids)
    (hstoreIds : storeIds store' = storeIds store)
    (hprov : ProvOK store')
    (hbound : ∀ p ∈ store', ChunkBound enc p)
    (hinv : SparseInv enc (P ++ t :: s :: Q) store) :
    SparseInv enc (P ++ t' :: Q) store' := by
  obtain ⟨h1, h2, h3, h4, h5, h6⟩ := hinv
  have hmapN : (P ++ t' :: Q).map (·.section_id) =
      P.map (·.section_id) ++ t.section_id :: Q.map (·.section_id) := by
    simp [hsid]
  have hmapO : (P ++ t :: s :: Q).map (·.section_id) =
      (P.map (·.section_id) ++ [t.section_id]) ++
        s.section_id :: Q.map (·.section_id) := by
    simp
  have hsubN : ((P ++ t' :: Q).map (·.section_id)).Sublist
      ((P ++ t :: s :: Q).map (·.section_id)) := by
    rw [hmapN, hmapO]
    have : (t.section_id :: Q.map (·.section_id)).Sublist
        (t.section_id :: s.section_id :: Q.map (·.section_id)) :=
      List.Sublist.cons₂ t.section_id
        (List.Sublist.cons s.section_id (List.Sublist.refl _))
    have hres := List.Sublist.append_left this (P.map (·.section_id))
    rw [List.append_assoc]
    exact hres
  have hnotmem : s.section_id ∉ (P ++ t' :: Q).map (·.section_id) := by
    rw [hmapO] at h3
    obtain ⟨hnP, hnC⟩ := nodup_middle_not_mem h3
    rw [hmapN]
    intro hc
    rcases List.mem_append.mp hc with hc1 | hc2
    · exact hnP (List.mem_append.mpr (Or.inl hc1))
    · rcases List.mem_cons.mp hc2 with heq | hc3
      · exact hnP (by simp [heq])
      · exact hnC hc3
  have h3' : ((P ++ t :: s :: Q).map (·.section_id)).Nodup := h3
  refine ⟨by rw [hstoreIds]; exact h1, ?_, hsubN.nodup h3, ?_, hprov, hbound⟩
  · rw [hstoreIds, ← h2]
    simp [hids]
  · intro sec hsec id hid
    have hsecmem : ∀ x ∈ (P ++ t' :: Q).map (·.section_id),
        x ∈ (P ++ t :: s :: Q).map (·.section_id) :=
      fun x hx => hsubN.subset hx
    rcases List.mem_append.mp hsec with hP | htQ
    · intro hc
      exact h4 sec (by simp [hP]) id hid (hsecmem _ hc)
    · rcases List.mem_cons.mp htQ with rfl | hQ
      · rw [htrail] at hid
        rcases List.mem_append.mp hid with hidt | hids2
        · intro hc
          exact h4 t (by simp) id hidt (hsecmem _ hc)
        · rcases List.mem_singleton.mp hids2 with rfl
          exact hnotmem
      · intro hc
        exact h4 sec (by simp [hQ]) id hid (hsecmem _ hc)

theorem mergeSparseLoop_inv (enc : Option (String → Nat)) :
    ∀ (fuel : Nat) (secs : List SectionRecord) (store : List ParagraphRecord) (idx : Nat),
      SparseInv enc secs store →
      SparseInv enc (mergeSparseLoop fuel secs store idx).1
        (mergeSparseLoop fuel secs store idx).2 := by
  intro fuel
  induction fuel with
  | zero => exact fun secs store idx h => h
  | succ f ih =>
    intro secs store idx hinv
    by_cases h : idx < secs.length
    · simp only [mergeSparseLoop]
      rw [dif_pos h]
      generalize hg : secs.get ⟨idx, h⟩ = s0
      by_cases hbc : 1 < sectionBodyCount store s0
      · rw [if_pos hbc]
        exact ih secs store (idx + 1) hinv
      · rw [if_neg hbc]
        have hdec : secs = secs.take idx ++ s0 :: secs.drop (idx + 1) := by
          rw [← hg]
          exact list_decomp secs idx h
        have hlenP : (secs.take idx).length = idx := by
          rw [List.length_take]
          omega
        have hsetE : ∀ v : SectionRecord,
            secs.set idx v = secs.take idx ++ v :: secs.drop (idx + 1) := by
          intro v
          rw [List.set_eq_take_append_cons_drop, if_pos h]
        generalize hs1 : ({ s0 with
          is_heading_only_original := sectionBodyCount store s0 == 0 } :
            SectionRecord) = s1
        have hshape0 : SparseInv enc
            (secs.take idx ++ s1 :: secs.drop (idx + 1)) store := by
          rw [← hs1]
          have hinv2 := hinv
          rw [hdec] at hinv2
          exact SparseInv_set_flag enc _ _ _ _ _ hinv2
        by_cases hlen1 : (secs.length == 1) = true
        · rw [if_pos hlen1]
          apply ih
          rw [hsetE]
          exact hshape0
        · rw [if_neg hlen1]
          have hlenne : secs.length ≠ 1 := by simpa using hlen1
          have hs1ids : s1.paragraph_ids = s0.paragraph_ids := by
            rw [← hs1]
          by_cases hfwd : idx + 1 < secs.length
          · -- consolidate into the following section
            rw [if_pos hfwd]
            rw [if_pos (Nat.lt_succ_self idx)]
            rw [if_neg (show ¬ idx + 1 < idx by omega)]
            have hdropE : secs.drop (idx + 1) =
                secs.get ⟨idx + 1, hfwd⟩ :: secs.drop (idx + 2) := by
              rw [List.drop_eq_getElem_cons hfwd]
              rfl
            have hgd : (secs.set idx s1).getD (idx + 1) dummySection =
                secs.get ⟨idx + 1, hfwd⟩ := by
              rw [hsetE, hdropE]
              have hA : secs.take idx ++ s1 :: secs.get ⟨idx + 1, hfwd⟩ ::
                  secs.drop (idx + 2) =
                  (secs.take idx ++ [s1]) ++ secs.get ⟨idx + 1, hfwd⟩ ::
                    secs.drop (idx + 2) := by
                simp
              rw [hA]
              have hgg := getD_at_append (secs.take idx ++ [s1])
                (secs.get ⟨idx + 1, hfwd⟩) (secs.drop (idx + 2)) dummySection
              rw [List.length_append, hlenP] at hgg
              simpa using hgg
            rw [hgd]
            rw [hsetE, hdropE]
            have hsetT : (secs.take idx ++ s1 :: secs.get ⟨idx + 1, hfwd⟩ ::
                secs.drop (idx + 2)).set (idx + 1)
                  (consolidatedTarget (secs.get ⟨idx + 1, hfwd⟩) s1
                    (if titleTruthy s0.title then
                      sectionHeadingTexts store s1 ++ [s0.title.getD ""]
                     else sectionHeadingTexts store s1)
                    (s0.paragraph_ids ++ (secs.get ⟨idx + 1, hfwd⟩).paragraph_ids)) =
                secs.take idx ++ s1 ::
                  consolidatedTarget (secs.get ⟨idx + 1, hfwd⟩) s1
                    (if titleTruthy s0.title then
                      sectionHeadingTexts store s1 ++ [s0.title.getD ""]
                     else sectionHeadingTexts store s1)
                    (s0.paragraph_ids ++ (secs.get ⟨idx + 1, hfwd⟩).paragraph_ids) ::
                  secs.drop (idx + 2) := by
              have hA : secs.take idx ++ s1 :: secs.get ⟨idx + 1, hfwd⟩ ::
                  secs.drop (idx + 2) =
                  (secs.take idx ++ [s1]) ++ secs.get ⟨idx + 1, hfwd⟩ ::
                    secs.drop (idx + 2) := by
                simp
              rw [hA]
              have hss := set_at_append (secs.take idx ++ [s1])
                (secs.get ⟨idx + 1, hfwd⟩) (secs.drop (idx + 2))
                (consolidatedTarget (secs.get ⟨idx + 1, hfwd⟩) s1
                  (if titleTruthy s0.title then
                    sectionHeadingTexts store s1 ++ [s0.title.getD ""]
                   else sectionHeadingTexts store s1)
                  (s0.paragraph_ids ++ (secs.get ⟨idx + 1, hfwd⟩).paragraph_ids))
              rw [List.length_append, hlenP] at hss
              rw [show idx + [s1].length = idx + 1 by simp] at hss
              rw [hss]
              simp
            rw [hsetT]
            have hErase := eraseIdx_at_append (secs.take idx) s1
              (consolidatedTarget (secs.get ⟨idx + 1, hfwd⟩) s1
                (if titleTruthy s0.title then
                  sectionHeadingTexts store s1 ++ [s0.title.getD ""]
                 else sectionHeadingTexts store s1)
                (s0.paragraph_ids ++ (secs.get ⟨idx + 1, hfwd⟩).paragraph_ids) ::
                secs.drop (idx + 2))
            rw [hlenP] at hErase
            rw [hErase]
            apply ih
            apply SparseInv_merge_fwd enc (secs.take idx) (secs.drop (idx + 2)) s1
              (secs.get ⟨idx + 1, hfwd⟩)
              (consolidatedTarget (secs.get ⟨idx + 1, hfwd⟩) s1
                (if titleTruthy s0.title then
                  sectionHeadingTexts store s1 ++ [s0.title.getD ""]
                 else sectionHeadingTexts store s1)
                (s0.paragraph_ids ++ (secs.get ⟨idx + 1, hfwd⟩).paragraph_ids))
              store _ rfl rfl (by rw [hs1ids]; rfl)
              (storeIds_sectionReassign _ _ _)
              (ProvOK_sectionReassign hinv.2.2.2.2.1)
              (bound_sectionReassign hinv.2.2.2.2.2)
            have hshape1 := hshape0
            rw [hdropE] at hshape1
            exact hshape1
          · -- consolidate into the preceding section
            rw [if_neg hfwd]
            have hlen2 : secs.length = idx + 1 := by omega
            have hidx1 : 1 ≤ idx := by omega
            have hidxm : idx - 1 < secs.length := by omega
            rw [if_neg (show ¬ idx < idx - 1 by omega)]
            rw [if_pos (show idx - 1 < idx by omega)]
            have hlenP2 : (secs.take (idx - 1)).length = idx - 1 := by
              rw [List.length_take]
              omega
            have hdropNil : secs.drop (idx + 1) = [] :=
              List.drop_eq_nil_of_le (by omega)
            have hTake : secs.take idx = secs.take (idx - 1) ++
                [secs.get ⟨idx - 1, hidxm⟩] := by
              have h1 : idx = (idx - 1) + 1 := by omega
              conv_lhs => rw [h1]
              rw [List.take_succ]
              congr 1
              rw [List.getElem?_eq_getElem hidxm]
              rfl
            have hgd : (secs.set idx s1).getD (idx - 1) dummySection =
                secs.get ⟨idx - 1, hidxm⟩ := by
              rw [hsetE, hdropNil, hTake]
              have hA : (secs.take (idx - 1) ++ [secs.get ⟨idx - 1, hidxm⟩]) ++
                  s1 :: [] =
                  secs.take (idx - 1) ++ secs.get ⟨idx - 1, hidxm⟩ :: s1 :: [] := by
                rw [List.append_assoc]
                rfl
              rw [hA]
              have hgg := getD_at_append (secs.take (idx - 1))
                (secs.get ⟨idx - 1, hidxm⟩) (s1 :: []) dummySection
              rw [hlenP2] at hgg
              exact hgg
            rw [hgd]
            rw [hsetE, hdropNil, hTake]
            have hA : (secs.take (idx - 1) ++ [secs.get ⟨idx - 1, hidxm⟩]) ++
                s1 :: [] =
                secs.take (idx - 1) ++ secs.get ⟨idx - 1, hidxm⟩ :: s1 :: [] := by
              rw [List.append_assoc]
              rfl
            rw [hA]
            have hsetT : (secs.take (idx - 1) ++ secs.get ⟨idx - 1, hidxm⟩ ::
                s1 :: []).set (idx - 1)
                  (consolidatedTarget (secs.get ⟨idx - 1, hidxm⟩) s1
                    (if titleTruthy s0.title then
                      sectionHeadingTexts store s1 ++ [s0.title.getD ""]
                     else sectionHeadingTexts store s1)
                    ((secs.get ⟨idx - 1, hidxm⟩).paragraph_ids ++ s0.paragraph_ids)) =
                secs.take (idx - 1) ++
                  consolidatedTarget (secs.get ⟨idx - 1, hidxm⟩) s1
                    (if titleTruthy s0.title then
                      sectionHeadingTexts store s1 ++ [s0.title.getD ""]
                     else sectionHeadingTexts store s1)
                    ((secs.get ⟨idx - 1, hidxm⟩).paragraph_ids ++ s0.paragraph_ids) ::
                  s1 :: [] := by
              have hss := set_at_append (secs.take (idx - 1))
                (secs.get ⟨idx - 1, hidxm⟩) (s1 :: [])
                (consolidatedTarget (secs.get ⟨idx - 1, hidxm⟩) s1
                  (if titleTruthy s0.title then
                    sectionHeadingTexts store s1 ++ [s0.title.getD ""]
                   else sectionHeadingTexts store s1)
                  ((secs.get ⟨idx - 1, hidxm⟩).paragraph_ids ++ s0.paragraph_ids))
              rw [hlenP2] at hss
              exact hss
            rw [hsetT]
            have hErase : (secs.take (idx - 1) ++
                consolidatedTarget (secs.get ⟨idx - 1, hidxm⟩) s1
                  (if titleTruthy s0.title then
                    sectionHeadingTexts store s1 ++ [s0.title.getD ""]
                   else sectionHeadingTexts store s1)
                  ((secs.get ⟨idx - 1, hidxm⟩).paragraph_ids ++ s0.paragraph_ids) ::
                s1 :: []).eraseIdx idx =
                secs.take (idx - 1) ++
                  consolidatedTarget (secs.get ⟨idx - 1, hidxm⟩) s1
                    (if titleTruthy s0.title then
                      sectionHeadingTexts store s1 ++ [s0.title.getD ""]
                     else sectionHeadingTexts store s1)
                    ((secs.get ⟨idx - 1, hidxm⟩).paragraph_ids ++ s0.paragraph_ids) ::
                  [] := by
              have hB : secs.take (idx - 1) ++
                  consolidatedTarget (secs.get ⟨idx - 1, hidxm⟩) s1
                    (if titleTruthy s0.title then
                      sectionHeadingTexts store s1 ++ [s0.title.getD ""]
                     else sectionHeadingTexts store s1)
                    ((secs.get ⟨idx - 1, hidxm⟩).paragraph_ids ++ s0.paragraph_ids) ::
                  s1 :: [] =
                  (secs.take (idx - 1) ++
                    [consolidatedTarget (secs.get ⟨idx - 1, hidxm⟩) s1
                      (if titleTruthy s0.title then
                        sectionHeadingTexts store s1 ++ [s0.title.getD ""]
                       else sectionHeadingTexts store s1)
                      ((secs.get ⟨idx - 1, hidxm⟩).paragraph_ids ++
                        s0.paragraph_ids)]) ++ s1 :: [] := by
                simp
              rw [hB]
              have hee := eraseIdx_at_append (secs.take (idx - 1) ++
                [consolidatedTarget (secs.get ⟨idx - 1, hidxm⟩) s1
                  (if titleTruthy s0.title then
                    sectionHeadingTexts store s1 ++ [s0.title.getD ""]
                   else sectionHeadingTexts store s1)
                  ((secs.get ⟨idx - 1, hidxm⟩).paragraph_ids ++ s0.paragraph_ids)])
                s1 ([] : List SectionRecord)
              rw [List.length_append, hlenP2] at hee
              rw [show idx - 1 + [consolidatedTarget (secs.get ⟨idx - 1, hidxm⟩) s1
                  (if titleTruthy s0.title then
                    sectionHeadingTexts store s1 ++ [s0.title.getD ""]
                   else sectionHeadingTexts store s1)
                  ((secs.get ⟨idx - 1, hidxm⟩).paragraph_ids ++
                    s0.paragraph_ids)].length = idx by simp; omega] at hee
              rw [hee]
              simp
            rw [hErase]
            apply ih
            apply SparseInv_merge_bwd enc (secs.take (idx - 1)) [] s1
              (secs.get ⟨idx - 1, hidxm⟩)
              (consolidatedTarget (secs.get ⟨idx - 1, hidxm⟩) s1
                (if titleTruthy s0.title then
                  sectionHeadingTexts store s1 ++ [s0.title.getD ""]
                 else sectionHeadingTexts store s1)
                ((secs.get ⟨idx - 1, hidxm⟩).paragraph_ids ++ s0.paragraph_ids))
              store _ rfl rfl (by rw [hs1ids]; rfl)
              (storeIds_sectionReassign _ _ _)
              (ProvOK_sectionReassign hinv.2.2.2.2.1)
              (bound_sectionReassign hinv.2.2.2.2.2)
            have hshape1 := hshape0
            rw [hdropNil, hTake] at hshape1
            have hA2 : (secs.take (idx - 1) ++ [secs.get ⟨idx - 1, hidxm⟩]) ++
                s1 :: [] =
                secs.take (idx - 1) ++ secs.get ⟨idx - 1, hidxm⟩ :: s1 :: [] := by
              rw [List.append_assoc]
              rfl
            rw [hA2] at hshape1
            exact hshape1
    · simp only [mergeSparseLoop]
      rw [dif_neg h]
      exact hinv

theorem mergeSparseLoop_len :
    ∀ (fuel : Nat) (secs : List SectionRecord) (store : List ParagraphRecord) (idx : Nat),
      1 ≤ secs.length → 1 ≤ (mergeSparseLoop fuel secs store idx).1.length := by
  intro fuel
  induction fuel with
  | zero => exact fun secs store idx h => h
  | succ f ih =>
    intro secs store idx hlen
    by_cases h : idx < secs.length
    · simp only [mergeSparseLoop]
      rw [dif_pos h]
      by_cases hbc : 1 < sectionBodyCount store (secs.get ⟨idx, h⟩)
      · rw [if_pos hbc]
        exact ih secs store (idx + 1) hlen
      · rw [if_neg hbc]
        by_cases hlen1 : (secs.length == 1) = true
        · rw [if_pos hlen1]
          apply ih
          simpa using hlen
        · rw [if_neg hlen1]
          apply ih
          have hne : secs.length ≠ 1 := by simpa using hlen1
          simp only [List.length_eraseIdx, List.length_set]
          rw [if_pos h]
          omega
    · simp only [mergeSparseLoop]
      rw [dif_neg h]
      exact hlen

theorem mergeSparseLoop_identity :
    ∀ (fuel : Nat) (secs : List SectionRecord) (store : List ParagraphRecord) (idx : Nat),
      (∀ s ∈ secs, 1 < sectionBodyCount store s) →
      mergeSparseLoop fuel secs store idx = (secs, store) := by
  intro fuel
  induction fuel with
  | zero => exact fun secs store idx _ => rfl
  | succ f ih =>
    intro secs store idx hall
    by_cases h : idx < secs.length
    · simp only [mergeSparseLoop]
      rw [dif_pos h]
      have hbc : 1 < sectionBodyCount store (secs.get ⟨idx, h⟩) :=
        hall _ (secs.get_mem idx h)
      rw [if_pos hbc]
      exact ih secs store (idx + 1) hall
    · simp only [mergeSparseLoop]
      rw [dif_neg h]

theorem merge_sparse_inv (enc : Option (String → Nat))
    (secs : List SectionRecord) (store : List ParagraphRecord)
    (h : SparseInv enc secs store) :
    SparseInv enc (merge_sparse_sections secs store).1
      (merge_sparse_sections secs store).2 := by
  unfold merge_sparse_sections
  by_cases hemp : secs.isEmpty
  · rw [if_pos hemp]
    exact h
  · rw [if_neg hemp]
    exact mergeSparseLoop_inv enc _ secs store 0 h

theorem merge_sparse_len (secs : List SectionRecord) (store : List ParagraphRecord)
    (h : 1 ≤ secs.length) : 1 ≤ (merge_sparse_sections secs store).1.length := by
  unfold merge_sparse_sections
  by_cases hemp : secs.isEmpty
  · rw [if_pos hemp]
    exact h
  · rw [if_neg hemp]
    exact mergeSparseLoop_len _ secs store 0 h

theorem merge_sparse_identity (secs : List SectionRecord) (store : List ParagraphRecord)
    (h : ∀ s ∈ secs, 1 < sectionBodyCount store s) :
    merge_sparse_sections secs store = (secs, store) := by
  unfold merge_sparse_sections
  by_cases hemp : secs.isEmpty
  · rw [if_pos hemp]
  · rw [if_neg hemp]
    exact mergeSparseLoop_identity _ secs store 0 h

/-! Lemmas about the order finalizer. -/

theorem resolveParas_core (store : List ParagraphRecord) (sid : String) :
    ∀ (ids : List String) (k : Nat), ∀ p ∈ resolveParas store sid k ids,
      ∃ q ∈ store, p.paragraph_id = q.paragraph_id ∧
        p.merged_from_ids = q.merged_from_ids ∧ p.text = q.text := by
  intro ids
  induction ids with
  | nil => intro k p hp; cases hp
  | cons pid rest ih =>
    intro k p hp
    cases hf : pmFind store pid with
    | none =>
      simp only [resolveParas, hf] at hp
      exact ih (k + 1) p hp
    | some q =>
      simp only [resolveParas, hf] at hp
      rcases List.mem_cons.mp hp with rfl | hp2
      · exact ⟨q, (pmFind_property hf).1, rfl, rfl, rfl⟩
      · exact ih (k + 1) p hp2

theorem resolveParas_all (store : List ParagraphRecord) (sid : String) :
    ∀ (ids : List String) (k : Nat),
      (∀ pid ∈ ids, pid ∈ storeIds store) →
      (resolveParas store sid k ids).map (·.paragraph_id) = ids ∧
      (resolveParas store sid k ids).map (·.order_in_section) =
        List.range' (k + 1) ids.length := by
  intro ids
  induction ids with
  | nil => exact fun k _ => ⟨rfl, rfl⟩
  | cons pid rest ih =>
    intro k hres
    obtain ⟨p, hf⟩ := Option.isSome_iff_exists.mp
      (pmFind_isSome_of_mem (hres pid (by simp)))
    obtain ⟨ih1, ih2⟩ := ih (k + 1) (fun pid2 h2 => hres pid2 (by simp [h2]))
    simp only [resolveParas, hf, List.map_cons]
    constructor
    · rw [ih1]
      have := (pmFind_property hf).2
      simp [this]
    · rw [ih2]
      rw [List.length_cons, List.range'_succ]

theorem filter_isSome_all {store : List ParagraphRecord} {ids : List String}
    (h : ∀ pid ∈ ids, pid ∈ storeIds store) :
    ids.filter (fun pid => (pmFind store pid).isSome) = ids :=
  List.filter_eq_self.mpr (fun pid hp => pmFind_isSome_of_mem (h pid hp))

theorem finalizeSections_len (store : List ParagraphRecord) :
    ∀ (secs : List SectionRecord) (i : Nat),
      (finalizeSections store i secs).1.length = secs.length := by
  intro secs
  induction secs with
  | nil => intro i; rfl
  | cons s rest ih =>
    intro i
    simp only [finalizeSections, List.length_cons]
    rw [ih]

theorem finalizeSections_orders (store : List ParagraphRecord) :
    ∀ (secs : List SectionRecord) (i : Nat),
      (finalizeSections store i secs).1.map (·.section_order) =
        List.range' (i + 1) secs.length := by
  intro secs
  induction secs with
  | nil => intro i; rfl
  | cons s rest ih =>
    intro i
    simp only [finalizeSections, List.map_cons, List.length_cons]
    rw [ih, List.range'_succ]

theorem finalizeSections_sid_trail (store : List ParagraphRecord) :
    ∀ (secs : List SectionRecord) (i : Nat),
      ∀ s' ∈ (finalizeSections store i secs).1, ∃ s ∈ secs,
        s'.section_id = s.section_id ∧
        s'.merged_from_section_ids = s.merged_from_section_ids := by
  intro secs
  induction secs with
  | nil => intro i s' hs'; cases hs'
  | cons s rest ih =>
    intro i s' hs'
    simp only [finalizeSections] at hs'
    rcases List.mem_cons.mp hs' with rfl | h2
    · exact ⟨s, by simp, rfl, rfl⟩
    · obtain ⟨s2, hs2, he⟩ := ih (i + 1) s' h2
      exact ⟨s2, by simp [hs2], he⟩

theorem finalizeSections_sids_map (store : List ParagraphRecord) :
    ∀ (secs : List SectionRecord) (i : Nat),
      (finalizeSections store i secs).1.map (·.section_id) =
        secs.map (·.section_id) := by
  intro secs
  induction secs with
  | nil => intro i; rfl
  | cons s rest ih =>
    intro i
    simp only [finalizeSections, List.map_cons]
    rw [ih]

theorem finalizeSections_core (store : List ParagraphRecord) :
    ∀ (secs : List SectionRecord) (i : Nat),
      ∀ p ∈ (finalizeSections store i secs).2, ∃ q ∈ store,
        p.paragraph_id = q.paragraph_id ∧
        p.merged_from_ids = q.merged_from_ids ∧ p.text = q.text := by
  intro secs
  induction secs with
  | nil => intro i p hp; cases hp
  | cons s rest ih =>
    intro i p hp
    simp only [finalizeSections] at hp
    rcases List.mem_append.mp hp with h1 | h2
    · exact resolveParas_core store s.section_id s.paragraph_ids 0 p h1
    · exact ih (i + 1) p h2

theorem filterMap_pmFind_resolved :
    ∀ (ids : List String) (res : List ParagraphRecord) (pre post : List ParagraphRecord),
      res.map (·.paragraph_id) = ids → ids.Nodup →
      (∀ pid ∈ ids, pid ∉ storeIds pre) →
      ids.filterMap (pmFind (pre ++ (res ++ post))) = res := by
  intro ids
  induction ids with
  | nil =>
    intro res pre post hmap _ _
    cases res with
    | nil => rfl
    | cons r res' => exact absurd hmap (by simp)
  | cons pid rest ih =>
    intro res pre post hmap hnd hpre
    cases res with
    | nil => exact absurd hmap (by simp)
    | cons r res' =>
      simp only [List.map_cons, List.cons.injEq] at hmap
      obtain ⟨hr, hrest⟩ := hmap
      have hfind : pmFind (pre ++ (r :: res' ++ post)) pid = some r := by
        rw [pmFind_append_right (hpre pid (by simp))]
        exact pmFind_cons_self hr
      rw [List.nodup_cons] at hnd
      have hassoc : pre ++ (r :: res' ++ post) = (pre ++ [r]) ++ (res' ++ post) := by
        simp
      have htail : rest.filterMap (pmFind ((pre ++ [r]) ++ (res' ++ post))) = res' := by
        apply ih res' (pre ++ [r]) post hrest hnd.2
        intro pid2 h2
        rw [storeIds_append]
        intro hc
        rcases List.mem_append.mp hc with hc1 | hc2
        · exact hpre pid2 (by simp [h2]) hc1
        · have : pid2 = r.paragraph_id := by
            simpa [storeIds] using hc2
          rw [this, hr] at h2
          exact hnd.1 h2
      rw [List.filterMap_cons]
      rw [hfind]
      rw [hassoc, htail]

theorem finalizeSections_orders_within (store : List ParagraphRecord) :
    ∀ (secs : List SectionRecord) (i : Nat) (pre : List ParagraphRecord),
      (storeIds pre ++ (secs.map (·.paragraph_ids)).flatten).Nodup →
      (∀ s ∈ secs, ∀ pid ∈ s.paragraph_ids, pid ∈ storeIds store) →
      storeIds (finalizeSections store i secs).2 =
        (secs.map (·.paragraph_ids)).flatten ∧
      ∀ s' ∈ (finalizeSections store i secs).1,
        (s'.paragraph_ids.filterMap
          (pmFind (pre ++ (finalizeSections store i secs).2))).map
            (·.order_in_section) = List.range' 1 s'.paragraph_ids.length := by
  intro secs
  induction secs with
  | nil =>
    intro i pre hnd hres
    exact ⟨rfl, fun s' hs' => absurd hs' (by simp [finalizeSections])⟩
  | cons s rest ih =>
    intro i pre hnd hres
    have hress : ∀ pid ∈ s.paragraph_ids, pid ∈ storeIds store :=
      hres s (by simp)
    obtain ⟨rmap, rord⟩ := resolveParas_all store s.section_id s.paragraph_ids 0 hress
    have hclean : s.paragraph_ids.filter (fun pid => (pmFind store pid).isSome) =
        s.paragraph_ids := filter_isSome_all hress
    have hndflat : (storeIds pre ++
        (s.paragraph_ids ++ (rest.map (·.paragraph_ids)).flatten)).Nodup := by
      simpa using hnd
    have hressR : ∀ s2 ∈ rest, ∀ pid ∈ s2.paragraph_ids, pid ∈ storeIds store :=
      fun s2 h2 => hres s2 (by simp [h2])
    have rmap2 : storeIds (resolveParas store s.section_id 0 s.paragraph_ids) =
        s.paragraph_ids := rmap
    have hndR : (storeIds (pre ++ resolveParas store s.section_id 0 s.paragraph_ids) ++
        (rest.map (·.paragraph_ids)).flatten).Nodup := by
      rw [storeIds_append, rmap2]
      rw [List.append_assoc]
      exact hndflat
    obtain ⟨ih1, ih2⟩ := ih (i + 1)
      (pre ++ resolveParas store s.section_id 0 s.paragraph_ids) hndR hressR
    have hfin1 : storeIds ((finalizeSections store i (s :: rest)).2) =
        s.paragraph_ids ++ (rest.map (·.paragraph_ids)).flatten := by
      simp only [finalizeSections]
      rw [storeIds_append, rmap2, ih1]
    refine ⟨by simpa using hfin1, ?_⟩
    intro s' hs'
    simp only [finalizeSections] at hs' ⊢
    have hnodups : s.paragraph_ids.Nodup := by
      rw [List.nodup_append] at hndflat
      exact (List.nodup_append.mp hndflat.2.1).1
    have hprenot : ∀ pid ∈ s.paragraph_ids, pid ∉ storeIds pre := by
      intro pid hp hc
      rw [List.nodup_append] at hndflat
      exact hndflat.2.2 hc (by simp [hp])
    rcases List.mem_cons.mp hs' with rfl | h2
    · have hfm := filterMap_pmFind_resolved s.paragraph_ids
        (resolveParas store s.section_id 0 s.paragraph_ids) pre
        (finalizeSections store (i + 1) rest).2 rmap hnodups hprenot
      simp only [hclean]
      rw [hfm, rord]
    · have := ih2 s' h2
      rw [← List.append_assoc]
      exact this

/-! Glue: the invariant bundle holds entering and leaving every stage. -/

theorem ProvOK_build (docId : String) (layout : AnalyzeResult) :
    ProvOK (build_raw_records docId layout).2 := by
  intro p hp id hid hne _
  rw [build_mfi_singleton docId layout p hp] at hid
  exact hne (List.mem_singleton.mp hid)

theorem ChunkBound_build (enc : Option (String → Nat)) (docId : String)
    (layout : AnalyzeResult) :
    ∀ p ∈ (build_raw_records docId layout).2, ChunkBound enc p := by
  intro p hp hlen
  rw [build_mfi_singleton docId layout p hp] at hlen
  simp at hlen

theorem stage2_inv (enc : Option (String → Nat)) (docId : String) (layout : AnalyzeResult) :
    SparseInv enc
      (merge_paragraphs_for_embedding_chunks enc (build_raw_records docId layout).1
        (build_raw_records docId layout).2).1
      (merge_paragraphs_for_embedding_chunks enc (build_raw_records docId layout).1
        (build_raw_records docId layout).2).2 := by
  have hnd0 := build_ids_nodup docId layout
  have hflat0 : storeIds (build_raw_records docId layout).2 =
      [] ++ ((build_raw_records docId layout).1.map (·.paragraph_ids)).flatten := by
    rw [← build_flatten_eq docId layout]
    rfl
  obtain ⟨halign, hnd⟩ := mergePass_align enc (build_raw_records docId layout).1
    (build_raw_records docId layout).2 [] hnd0 hflat0
  obtain ⟨hsid, htrail, _⟩ := mergePass_fields enc (build_raw_records docId layout).1
    (build_raw_records docId layout).2
  refine ⟨hnd, by simpa using halign.symm, ?_, ?_, ?_, ?_⟩
  · rw [hsid]
    exact build_sids_nodup docId layout
  · intro s hs id hid
    have htr : s.merged_from_section_ids = [] := by
      have hmem : s.merged_from_section_ids ∈
          (merge_paragraphs_for_embedding_chunks enc (build_raw_records docId layout).1
            (build_raw_records docId layout).2).1.map (·.merged_from_section_ids) :=
        List.mem_map_of_mem _ hs
      rw [htrail] at hmem
      obtain ⟨s0, hs0, he⟩ := List.mem_map.mp hmem
      rw [← he]
      exact (build_section_trails docId layout s0 hs0).1
    rw [htr] at hid
    cases hid
  · exact mergePass_prov enc _ _ (ProvOK_build docId layout)
  · exact mergePass_bound enc _ _ (ChunkBound_build enc docId layout)

theorem stage3_inv (enc : Option (String → Nat)) (docId : String) (layout : AnalyzeResult) :
    SparseInv enc
      (merge_sparse_sections
        (merge_paragraphs_for_embedding_chunks enc (build_raw_records docId layout).1
          (build_raw_records docId layout).2).1
        (merge_paragraphs_for_embedding_chunks enc (build_raw_records docId layout).1
          (build_raw_records docId layout).2).2).1
      (merge_sparse_sections
        (merge_paragraphs_for_embedding_chunks enc (build_raw_records docId layout).1
          (build_raw_records docId layout).2).1
        (merge_paragraphs_for_embedding_chunks enc (build_raw_records docId layout).1
          (build_raw_records docId layout).2).2).2 :=
  merge_sparse_inv enc _ _ (stage2_inv enc docId layout)

theorem process_eq (enc : Option (String → Nat)) (docId : String) (layout : AnalyzeResult) :
    process enc docId layout =
      finalizeSections
        (merge_sparse_sections
          (merge_paragraphs_for_embedding_chunks enc (build_raw_records docId layout).1
            (build_raw_records docId layout).2).1
          (merge_paragraphs_for_embedding_chunks enc (build_raw_records docId layout).1
            (build_raw_records docId layout).2).2).2 0
        (merge_sparse_sections
          (merge_paragraphs_for_embedding_chunks enc (build_raw_records docId layout).1
            (build_raw_records docId layout).2).1
          (merge_paragraphs_for_embedding_chunks enc (build_raw_records docId layout).1
            (build_raw_records docId layout).2).2).1 := rfl

theorem sparse_res_all {enc : Option (String → Nat)} {secs : List SectionRecord}
    {store : List ParagraphRecord} (h : SparseInv enc secs store) :
    ∀ s ∈ secs, ∀ pid ∈ s.paragraph_ids, pid ∈ storeIds store := by
  intro s hs pid hp
  rw [← h.2.1]
  exact List.mem_flatten.mpr ⟨s.paragraph_ids, List.mem_map_of_mem _ hs, hp⟩

theorem sparse_nodup_flatten {enc : Option (String → Nat)} {secs : List SectionRecord}
    {store : List ParagraphRecord} (h : SparseInv enc secs store) :
    (storeIds ([] : List ParagraphRecord) ++
      (secs.map (·.paragraph_ids)).flatten).Nodup := by
  have : (secs.map (·.paragraph_ids)).flatten = storeIds store := h.2.1
  rw [this]
  simpa using h.1

/-! Claim theorems. -/

/-- C3: Ordering invariant.  For every input layout, after `process` completes
the `section_order` values of the returned sections, taken in list order, are
exactly `1..N`, and within every returned section the `order_in_section`
values of its paragraphs, taken in `paragraph_ids` order, are exactly
`1..M`. -/
theorem c3_ordering_invariant (enc : Option (String → Nat)) (docId : String)
    (layout : AnalyzeResult) :
    (process enc docId layout).1.map (·.section_order) =
      List.range' 1 (process enc docId layout).1.length ∧
    ∀ s ∈ (process enc docId layout).1,
      (sectionParagraphsInOrder (process enc docId layout).2 s).map
        (·.order_in_section) =
        List.range' 1 (sectionParagraphsInOrder (process enc docId layout).2 s).length := by
  have hinv := stage3_inv enc docId layout
  constructor
  · rw [process_eq]
    rw [finalizeSections_orders, finalizeSections_len]
  · intro s hs
    obtain ⟨_, hwithin⟩ := finalizeSections_orders_within
      (merge_sparse_sections
        (merge_paragraphs_for_embedding_chunks enc (build_raw_records docId layout).1
          (build_raw_records docId layout).2).1
        (merge_paragraphs_for_embedding_chunks enc (build_raw_records docId layout).1
          (build_raw_records docId layout).2).2).2
      (merge_sparse_sections
        (merge_paragraphs_for_embedding_chunks enc (build_raw_records docId layout).1
          (build_raw_records docId layout).2).1
        (merge_paragraphs_for_embedding_chunks enc (build_raw_records docId layout).1
          (build_raw_records docId layout).2).2).1
      0 [] (sparse_nodup_flatten hinv) (sparse_res_all hinv)
    rw [process_eq] at hs
    have hw := hwithin s hs
    simp only [List.nil_append] at hw
    have hmap : (sectionParagraphsInOrder (process enc docId layout).2 s).map
        (·.order_in_section) = List.range' 1 s.paragraph_ids.length := by
      rw [sectionParagraphsInOrder, process_eq]
      exact hw
    rw [hmap]
    congr 1
    have hlen := congrArg List.length hmap
    rw [List.length_map, List.length_range'] at hlen
    rw [hlen]

/-- C1 (amended): Provenance closure up to self-reference.  Every id recorded
in a surviving paragraph's `merged_from_ids` other than that paragraph's own
id names no paragraph of the final collection, and every id in a surviving
section's `merged_from_section_ids` names no section of the final
collection.  (As literally stated the claim fails, because each paragraph's
trail starts with its own id; see the counterexample.) -/
theorem c1_provenance_amended (enc : Option (String → Nat)) (docId : String)
    (layout : AnalyzeResult) :
    (∀ p ∈ (process enc docId layout).2, ∀ id ∈ p.merged_from_ids,
      id ≠ p.paragraph_id → id ∉ (process enc docId layout).2.map (·.paragraph_id)) ∧
    (∀ s ∈ (process enc docId layout).1, ∀ id ∈ s.merged_from_section_ids,
      id ∉ (process enc docId layout).1.map (·.section_id)) := by
  have hinv := stage3_inv enc docId layout
  obtain ⟨hfin1, _⟩ := finalizeSections_orders_within
    (merge_sparse_sections
      (merge_paragraphs_for_embedding_chunks enc (build_raw_records docId layout).1
        (build_raw_records docId layout).2).1
      (merge_paragraphs_for_embedding_chunks enc (build_raw_records docId layout).1
        (build_raw_records docId layout).2).2).2
    (merge_sparse_sections
      (merge_paragraphs_for_embedding_chunks enc (build_raw_records docId layout).1
        (build_raw_records docId layout).2).1
      (merge_paragraphs_for_embedding_chunks enc (build_raw_records docId layout).1
        (build_raw_records docId layout).2).2).1
    0 [] (sparse_nodup_flatten hinv) (sparse_res_all hinv)
  constructor
  · intro p hp id hid hne hcontra
    rw [process_eq] at hp
    obtain ⟨q, hq, hpid, hmfi, _⟩ := finalizeSections_core _ _ 0 p hp
    have hprov := hinv.2.2.2.2.1 q hq id (hmfi ▸ hid) (hpid ▸ hne)
    apply hprov
    have hids : (process enc docId layout).2.map (·.paragraph_id) =
        storeIds (merge_sparse_sections
          (merge_paragraphs_for_embedding_chunks enc (build_raw_records docId layout).1
            (build_raw_records docId layout).2).1
          (merge_paragraphs_for_embedding_chunks enc (build_raw_records docId layout).1
            (build_raw_records docId layout).2).2).2 := by
      rw [process_eq]
      have h1 : storeIds (finalizeSections
          (merge_sparse_sections
            (merge_paragraphs_for_embedding_chunks enc (build_raw_records docId layout).1
              (build_raw_records docId layout).2).1
            (merge_paragraphs_for_embedding_chunks enc (build_raw_records docId layout).1
              (build_raw_records docId layout).2).2).2 0
          (merge_sparse_sections
            (merge_paragraphs_for_embedding_chunks enc (build_raw_records docId layout).1
              (build_raw_records docId layout).2).1
            (merge_paragraphs_for_embedding_chunks enc (build_raw_records docId layout).1
              (build_raw_records docId layout).2).2).1).2 = _ := hfin1
      rw [show ∀ l : List ParagraphRecord, l.map (·.paragraph_id) = storeIds l from
        fun l => rfl]
      rw [h1]
      exact hinv.2.1
    rw [hids] at hcontra
    exact hcontra
  · intro s hs id hid hcontra
    rw [process_eq] at hs
    obtain ⟨s2, hs2, hsid, hstrail⟩ := finalizeSections_sid_trail _ _ 0 s hs
    have htrail := hinv.2.2.2.1 s2 hs2 id (hstrail ▸ hid)
    apply htrail
    rw [process_eq] at hcontra
    rw [finalizeSections_sids_map] at hcontra
    exact hcontra

/-- C10: Implicit merged-chunk size bound.  Every paragraph of the final
output that absorbed at least one other paragraph (its `merged_from_ids` has
more than one entry) has text within the 350-token maximum, measured by the
engine's own token counter. -/
theorem c10_merged_chunk_bound (enc : Option (String → Nat)) (docId : String)
    (layout : AnalyzeResult) (p : ParagraphRecord)
    (hp : p ∈ (process enc docId layout).2)
    (hlen : 1 < p.merged_from_ids.length) :
    tokenCount enc p.text ≤ MAX_EMBEDDING_CHUNK_TOKENS := by
  have hinv := stage3_inv enc docId layout
  rw [process_eq] at hp
  obtain ⟨q, hq, _, hmfi, htext⟩ := finalizeSections_core _ _ 0 p hp
  have hb := hinv.2.2.2.2.2 q hq
  rw [htext]
  exact hb (hmfi ▸ hlen)

/-- C8: Minimum-one-section.  If the built record list contains exactly one
section, consolidation never removes it: the output of `process` has at least
one section. -/
theorem c8_min_one_section (enc : Option (String → Nat)) (docId : String)
    (layout : AnalyzeResult)
    (h : (build_raw_records docId layout).1.length = 1) :
    1 ≤ (process enc docId layout).1.length := by
  rw [process_eq, finalizeSections_len]
  apply merge_sparse_len
  rw [mergePass_length]
  omega

/-- C4: Idempotence on already-normalized input.  If every built body-text
paragraph already meets the minimum token threshold and every built section
has at least two body-text paragraphs, `process` performs no merges: the
output has the same number of sections and paragraphs as the raw built
records, every paragraph's `merged_from_ids` names only itself, and every
section's `merged_from_section_ids` is empty. -/
theorem c4_idempotent_on_normalized (enc : Option (String → Nat)) (docId : String)
    (layout : AnalyzeResult)
    (H1 : ∀ p ∈ (build_raw_records docId layout).2, isBodyTextParagraph p = true →
      isNaturallySizedChunk enc p.text = true)
    (H2 : ∀ s ∈ (build_raw_records docId layout).1,
      2 ≤ sectionBodyCount (build_raw_records docId layout).2 s) :
    (process enc docId layout).1.length = (build_raw_records docId layout).1.length ∧
    (process enc docId layout).2.length = (build_raw_records docId layout).2.length ∧
    (∀ p ∈ (process enc docId layout).2, p.merged_from_ids = [p.paragraph_id]) ∧
    (∀ s ∈ (process enc docId layout).1, s.merged_from_section_ids = []) := by
  have hflat0 : storeIds (build_raw_records docId layout).2 =
      [] ++ ((build_raw_records docId layout).1.map (·.paragraph_ids)).flatten := by
    rw [← build_flatten_eq docId layout]
    rfl
  have hm : merge_paragraphs_for_embedding_chunks enc (build_raw_records docId layout).1
      (build_raw_records docId layout).2 =
      ((build_raw_records docId layout).1, (build_raw_records docId layout).2) :=
    mergePass_identity enc _ _ [] (build_ids_nodup docId layout) hflat0 H1
  have hsp : merge_sparse_sections (build_raw_records docId layout).1
      (build_raw_records docId layout).2 =
      ((build_raw_records docId layout).1, (build_raw_records docId layout).2) :=
    merge_sparse_identity _ _ (fun s hs => by
      have := H2 s hs
      omega)
  have hproc : process enc docId layout =
      finalizeSections (build_raw_records docId layout).2 0
        (build_raw_records docId layout).1 := by
    rw [process_eq, hm, hsp]
  have hnd : (storeIds ([] : List ParagraphRecord) ++
      (((build_raw_records docId layout).1.map (·.paragraph_ids)).flatten)).Nodup := by
    rw [build_flatten_eq docId layout]
    simpa using build_ids_nodup docId layout
  have hres : ∀ s ∈ (build_raw_records docId layout).1,
      ∀ pid ∈ s.paragraph_ids, pid ∈ storeIds (build_raw_records docId layout).2 := by
    intro s hs pid hp
    rw [← build_flatten_eq docId layout]
    exact List.mem_flatten.mpr ⟨s.paragraph_ids, List.mem_map_of_mem _ hs, hp⟩
  obtain ⟨hfin1, _⟩ := finalizeSections_orders_within (build_raw_records docId layout).2
    (build_raw_records docId layout).1 0 [] hnd hres
  refine ⟨?_, ?_, ?_, ?_⟩
  · rw [hproc, finalizeSections_len]
  · rw [hproc]
    have hlen := congrArg List.length hfin1
    rw [build_flatten_eq docId layout] at hlen
    simpa [storeIds] using hlen
  · intro p hp
    rw [hproc] at hp
    obtain ⟨q, hq, hpid, hmfi, _⟩ := finalizeSections_core _ _ 0 p hp
    rw [hmfi, build_mfi_singleton docId layout q hq, hpid]
  · intro s hs
    rw [hproc] at hs
    obtain ⟨s2, hs2, _, htrail⟩ := finalizeSections_sid_trail _ _ 0 s hs
    rw [htrail]
    exact (build_section_trails docId layout s2 hs2).1

/-- C2 (amended): a layout with zero sections is processed without error into
empty record collections; `process` returns `([], [])` rather than raising an
`EmptyDocument` error (no such error exists in the code). -/
theorem c2_empty_document_amended (enc : Option (String → Nat)) (docId : String)
    (layout : AnalyzeResult) (h : layout.sections.getD [] = []) :
    process enc docId layout = ([], []) := by
  have hb : build_raw_records docId layout = ([], []) := by
    unfold build_raw_records
    rw [h]
    rfl
  rw [process_eq, hb]
  rfl

/-- C5 (amended): a reference the parser rejects — one not ending in `/` +
1-15 lowercase letters + `/` + 1-5 digits at the end of the string or just
before a single trailing newline — and any parsed reference whose index is
out of range are skipped without effect, and the remaining references of the
section are processed exactly as if the bad reference were absent: folding
the element loop over `xs ++ r :: ys` equals folding it over `xs ++ ys`.
(As literally stated the claim fails: a reference in the claim's malformed
class that ends in the shape plus one trailing newline is parsed and
processed, because the regex `$` anchor matches before a final newline; see
the counterexample.) -/
theorem c5_bad_reference_skipped (docId : String) (paras : List LayoutParagraph)
    (tables : List DocumentTable) (st : BuildSt) (xs ys : List String) (r : String)
    (h : badElementRef paras tables r) :
    (xs ++ r :: ys).foldl (buildElementStep docId paras tables) st =
      (xs ++ ys).foldl (buildElementStep docId paras tables) st := by
  rw [List.foldl_append, List.foldl_append, List.foldl_cons]
  have hstep : ∀ st' : BuildSt, buildElementStep docId paras tables st' r = st' := by
    intro st'
    rcases h with hnone | ⟨pr, hparse, hbad⟩
    · simp [buildElementStep, hnone]
    · simp only [buildElementStep, hparse]
      rcases hbad with ⟨htype, hrange⟩ | ⟨htype, hrange⟩
      · have ht : (pr.type == PARAGRAPHS || pr.type == TABLES) = true := by
          simp [htype]
        rw [ht]
        simp only [Bool.not_true, Bool.false_eq_true, if_false]
        have hk : (pr.type == PARAGRAPHS) = true := by simp [htype]
        rw [if_pos hk]
        have hget : paras[pr.id_as_num]? = none := List.getElem?_eq_none hrange
        simp [paragraphRecordFromLayout, hget]
      · have ht : (pr.type == PARAGRAPHS || pr.type == TABLES) = true := by
          simp [htype]
        rw [ht]
        simp only [Bool.not_true, Bool.false_eq_true, if_false]
        have hk : (pr.type == PARAGRAPHS) = false := by
          rw [htype]
          decide
        rw [if_neg (by simp [hk])]
        have hget : tables[pr.id_as_num]? = none := List.getElem?_eq_none hrange
        simp [paragraphRecordFromTable, hget]
  rw [hstep]

/-! Table-flattening refinement machinery (claim C6): the fold into row
buckets agrees with filtering, and sorting the (distinct) insertion-order
keys agrees with `sorted(set(keys))`. -/

theorem lookupRow_cons (a : Nat × List (Nat × String))
    (rest : List (Nat × List (Nat × String))) (k : Nat) :
    lookupRow (a :: rest) k = if a.1 == k then a.2 else lookupRow rest k := by
  unfold lookupRow
  cases h : (a.1 == k) with
  | true =>
    rw [List.find?_cons_of_pos rest
      (show (fun e : Nat × List (Nat × String) => e.1 == k) a = true from h)]
    simp
  | false =>
    rw [List.find?_cons_of_neg rest
      (show ¬ (fun e : Nat × List (Nat × String) => e.1 == k) a = true by simp [h])]
    simp

theorem lookupRow_addCell (r : Nat) (v : Nat × String) (k : Nat) :
    ∀ rows, lookupRow (addCellToRows rows r v) k =
      if r == k then lookupRow rows k ++ [v] else lookupRow rows k := by
  intro rows
  induction rows with
  | nil =>
    show lookupRow [(r, [v])] k = _
    rw [lookupRow_cons]
    cases h : (r == k) with
    | true => simp [h, lookupRow]
    | false => simp [h, lookupRow]
  | cons a rest ih =>
    obtain ⟨a1, a2⟩ := a
    show lookupRow (if a1 = r then (a1, a2 ++ [v]) :: rest
      else (a1, a2) :: addCellToRows rest r v) k = _
    by_cases har : a1 = r
    · rw [if_pos har]
      subst har
      rw [lookupRow_cons, lookupRow_cons]
      cases h : (a1 == k) with
      | true => simp [h]
      | false => simp [h]
    · rw [if_neg har]
      rw [lookupRow_cons, lookupRow_cons, ih]
      cases hak : (a1 == k) with
      | true =>
        have hk : a1 = k := eq_of_beq hak
        have hrk : (r == k) = false := by
          apply beq_eq_false_iff_ne.mpr
          omega
        simp [hak, hrk]
      | false =>
        cases hr : (r == k) with
        | true => simp [hak, hr]
        | false => simp [hak, hr]

theorem lookupRow_fold (cs : List TableCell) :
    ∀ (acc : List (Nat × List (Nat × String))) (k : Nat),
    lookupRow (cs.foldl (fun acc c => addCellToRows acc (cellEntry c).1 (cellEntry c).2) acc) k =
      lookupRow acc k ++
        (cs.filter (fun c => (cellEntry c).1 == k)).map (fun c => (cellEntry c).2) := by
  induction cs with
  | nil =>
    intro acc k
    simp
  | cons c cs ih =>
    intro acc k
    rw [List.foldl_cons, ih, lookupRow_addCell]
    by_cases h : ((cellEntry c).1 == k) = true
    · rw [if_pos h]
      simp [List.filter_cons, h]
    · rw [if_neg h]
      simp [List.filter_cons, h]

theorem keys_addCell (r : Nat) (v : Nat × String) :
    ∀ rows : List (Nat × List (Nat × String)),
    (addCellToRows rows r v).map (·.1) =
      if r ∈ rows.map (·.1) then rows.map (·.1) else rows.map (·.1) ++ [r] := by
  intro rows
  induction rows with
  | nil => simp [addCellToRows]
  | cons a rest ih =>
    obtain ⟨a1, a2⟩ := a
    show (if a1 = r then (a1, a2 ++ [v]) :: rest
      else (a1, a2) :: addCellToRows rest r v).map (·.1) = _
    by_cases har : a1 = r
    · rw [if_pos har]
      subst har
      simp
    · rw [if_neg har]
      rw [List.map_cons, ih]
      have hne : ¬ (r = a1) := fun h => har h.symm
      by_cases hm : r ∈ rest.map (·.1)
      · rw [if_pos hm, if_pos (by simp [hne, hm])]
        rfl
      · rw [if_neg hm, if_neg (by simp [hne, hm])]
        rfl

theorem keys_fold_mem (cs : List TableCell) :
    ∀ (acc : List (Nat × List (Nat × String))) (k : Nat),
    (k ∈ (cs.foldl (fun acc c => addCellToRows acc (cellEntry c).1 (cellEntry c).2) acc).map (·.1)) ↔
      k ∈ acc.map (·.1) ∨ k ∈ cs.map (fun c => (cellEntry c).1) := by
  induction cs with
  | nil =>
    intro acc k
    simp
  | cons c cs ih =>
    intro acc k
    rw [List.foldl_cons, ih, keys_addCell]
    by_cases h : (cellEntry c).1 ∈ acc.map (·.1)
    · rw [if_pos h]
      simp only [List.map_cons, List.mem_cons]
      constructor
      · rintro (hk | hk)
        · exact Or.inl hk
        · exact Or.inr (Or.inr hk)
      · rintro (hk | rfl | hk)
        · exact Or.inl hk
        · exact Or.inl h
        · exact Or.inr hk
    · rw [if_neg h]
      simp only [List.mem_append, List.mem_singleton, List.map_cons, List.mem_cons]
      tauto

theorem keys_fold_nodup (cs : List TableCell) :
    ∀ acc : List (Nat × List (Nat × String)), (acc.map (·.1)).Nodup →
      ((cs.foldl (fun acc c => addCellToRows acc (cellEntry c).1 (cellEntry c).2) acc).map (·.1)).Nodup := by
  induction cs with
  | nil =>
    intro acc h
    exact h
  | cons c cs ih =>
    intro acc h
    rw [List.foldl_cons]
    apply ih
    rw [keys_addCell]
    by_cases hm : (cellEntry c).1 ∈ acc.map (·.1)
    · rw [if_pos hm]
      exact h
    · rw [if_neg hm]
      rw [List.nodup_append]
      refine ⟨h, List.nodup_singleton _, ?_⟩
      intro a ha hb
      rw [List.mem_singleton] at hb
      exact hm (hb ▸ ha)

theorem insertNatSorted_perm (x : Nat) :
    ∀ l, List.Perm (insertNatSorted x l) (x :: l) := by
  intro l
  induction l with
  | nil => exact List.Perm.refl _
  | cons y ys ih =>
    show List.Perm (if y < x then y :: insertNatSorted x ys else x :: y :: ys) _
    by_cases h : y < x
    · rw [if_pos h]
      exact (ih.cons y).trans (List.Perm.swap x y ys)
    · rw [if_neg h]

theorem insertNatSorted_sorted (x : Nat) : ∀ l, l.Pairwise (· ≤ ·) →
    (insertNatSorted x l).Pairwise (· ≤ ·) := by
  intro l
  induction l with
  | nil =>
    intro _
    simp [insertNatSorted]
  | cons y ys ih =>
    intro h
    rw [List.pairwise_cons] at h
    obtain ⟨hy, hys⟩ := h
    show (if y < x then y :: insertNatSorted x ys else x :: y :: ys).Pairwise (· ≤ ·)
    by_cases hlt : y < x
    · rw [if_pos hlt]
      rw [List.pairwise_cons]
      refine ⟨?_, ih hys⟩
      intro z hz
      rcases List.mem_cons.mp ((insertNatSorted_perm x ys).mem_iff.mp hz) with rfl | hz
      · omega
      · exact hy z hz
    · rw [if_neg hlt]
      rw [List.pairwise_cons]
      refine ⟨?_, List.pairwise_cons.mpr ⟨hy, hys⟩⟩
      intro z hz
      rcases List.mem_cons.mp hz with rfl | hz
      · omega
      · exact le_trans (by omega) (hy z hz)

theorem sortNat_perm : ∀ l, List.Perm (sortNat l) l := by
  intro l
  induction l with
  | nil => exact List.Perm.refl _
  | cons x l ih =>
    show List.Perm (insertNatSorted x (sortNat l)) (x :: l)
    exact (insertNatSorted_perm x (sortNat l)).trans (ih.cons x)

theorem sortNat_sorted : ∀ l, (sortNat l).Pairwise (· ≤ ·) := by
  intro l
  induction l with
  | nil => exact List.Pairwise.nil
  | cons x l ih => exact insertNatSorted_sorted x (sortNat l) ih

theorem mem_insertUniqueSorted (x a : Nat) :
    ∀ l, a ∈ insertUniqueSorted x l ↔ a = x ∨ a ∈ l := by
  intro l
  induction l with
  | nil => simp [insertUniqueSorted]
  | cons y ys ih =>
    show a ∈ (if x < y then x :: y :: ys else if x = y then y :: ys
      else y :: insertUniqueSorted x ys) ↔ _
    by_cases h1 : x < y
    · rw [if_pos h1]
      simp only [List.mem_cons]
    · rw [if_neg h1]
      by_cases h2 : x = y
      · rw [if_pos h2]
        subst h2
        simp only [List.mem_cons]
        tauto
      · rw [if_neg h2]
        simp only [List.mem_cons, ih]
        tauto

theorem pairwise_insertUniqueSorted (x : Nat) : ∀ l, l.Pairwise (· < ·) →
    (insertUniqueSorted x l).Pairwise (· < ·) := by
  intro l
  induction l with
  | nil =>
    intro _
    simp [insertUniqueSorted]
  | cons y ys ih =>
    intro h
    rw [List.pairwise_cons] at h
    obtain ⟨hy, hys⟩ := h
    show (if x < y then x :: y :: ys else if x = y then y :: ys
      else y :: insertUniqueSorted x ys).Pairwise (· < ·)
    by_cases h1 : x < y
    · rw [if_pos h1]
      rw [List.pairwise_cons]
      refine ⟨?_, List.pairwise_cons.mpr ⟨hy, hys⟩⟩
      intro z hz
      rcases List.mem_cons.mp hz with rfl | hz
      · exact h1
      · exact lt_trans h1 (hy z hz)
    · rw [if_neg h1]
      by_cases h2 : x = y
      · rw [if_pos h2]
        exact List.pairwise_cons.mpr ⟨hy, hys⟩
      · rw [if_neg h2]
        rw [List.pairwise_cons]
        refine ⟨?_, ih hys⟩
        intro z hz
        rcases (mem_insertUniqueSorted x z ys).mp hz with rfl | hz
        · omega
        · exact hy z hz

theorem mem_sortedDedup (a : Nat) : ∀ l, a ∈ sortedDedup l ↔ a ∈ l := by
  intro l
  induction l with
  | nil => simp [sortedDedup]
  | cons x l ih =>
    show a ∈ insertUniqueSorted x (sortedDedup l) ↔ _
    rw [mem_insertUniqueSorted, ih]
    simp only [List.mem_cons]

theorem pairwise_sortedDedup : ∀ l, (sortedDedup l).Pairwise (· < ·) := by
  intro l
  induction l with
  | nil => exact List.Pairwise.nil
  | cons x l ih => exact pairwise_insertUniqueSorted x (sortedDedup l) ih

theorem pairwise_lt_of_le_nodup {l : List Nat} (h1 : l.Pairwise (· ≤ ·))
    (h2 : l.Nodup) : l.Pairwise (· < ·) :=
  (h1.and h2).imp (fun h => lt_of_le_of_ne h.1 h.2)

theorem strictSorted_ext : ∀ (l1 l2 : List Nat), l1.Pairwise (· < ·) →
    l2.Pairwise (· < ·) → (∀ x, x ∈ l1 ↔ x ∈ l2) → l1 = l2
  | [], [], _, _, _ => rfl
  | [], b :: l2, _, _, hm =>
    absurd ((hm b).mpr (List.mem_cons_self b l2)) (List.not_mem_nil b)
  | a :: l1, [], _, _, hm =>
    absurd ((hm a).mp (List.mem_cons_self a l1)) (List.not_mem_nil a)
  | a :: l1, b :: l2, h1, h2, hm => by
    rw [List.pairwise_cons] at h1 h2
    obtain ⟨ha, h1⟩ := h1
    obtain ⟨hb, h2⟩ := h2
    have hab : a = b := by
      have m1 := (hm a).mp (List.mem_cons_self a l1)
      have m2 := (hm b).mpr (List.mem_cons_self b l2)
      rcases List.mem_cons.mp m1 with h | h
      · exact h
      · rcases List.mem_cons.mp m2 with h' | h'
        · exact h'.symm
        · have hba := hb a h
          have hab' := ha b h'
          omega
    subst hab
    congr 1
    apply strictSorted_ext l1 l2 h1 h2
    intro x
    constructor
    · intro hx
      rcases List.mem_cons.mp ((hm x).mp (List.mem_cons_of_mem a hx)) with rfl | h
      · exact absurd (ha x hx) (lt_irrefl x)
      · exact h
    · intro hx
      rcases List.mem_cons.mp ((hm x).mpr (List.mem_cons_of_mem a hx)) with rfl | h
      · exact absurd (hb x hx) (lt_irrefl x)
      · exact h

theorem tableRows_keys_eq (t : DocumentTable) :
    sortNat ((tableRows t).map (·.1)) =
      sortedDedup (t.cells.map (fun c => (cellEntry c).1)) := by
  apply strictSorted_ext
  · apply pairwise_lt_of_le_nodup (sortNat_sorted _)
    rw [(sortNat_perm _).nodup_iff]
    exact keys_fold_nodup t.cells [] (by simp)
  · exact pairwise_sortedDedup _
  · intro x
    rw [(sortNat_perm _).mem_iff, mem_sortedDedup, tableRows, keys_fold_mem t.cells [] x]
    simp

theorem tableRows_lookup (t : DocumentTable) (k : Nat) :
    lookupRow (tableRows t) k =
      (t.cells.filter (fun c => (cellEntry c).1 == k)).map (fun c => (cellEntry c).2) := by
  rw [tableRows, lookupRow_fold]
  rfl

theorem flatten_table_refines (t : DocumentTable) :
    flatten_table_to_text t = specFlattenTable t := by
  simp only [flatten_table_to_text, specFlattenTable]
  rw [tableRows_keys_eq]
  have hfun : (fun k => String.intercalate " | "
        ((sortByCol (lookupRow (tableRows t) k)).map (·.2))) =
      (fun r => String.intercalate " | "
        ((sortByCol ((t.cells.filter (fun c => (cellEntry c).1 == r)).map
          (fun c => (cellEntry c).2))).map (·.2))) :=
    funext fun k => by rw [tableRows_lookup]
  rw [hfun]

/-! The summary blob's body fold as a filterMap (claim C9). -/

theorem summaryBody_foldl (store : List ParagraphRecord) (pids : List String) :
    ∀ acc : List String,
    pids.foldl (fun acc pid =>
      match pmFind store pid with
      | none => acc
      | some p =>
        if p.is_heading_like && p.kind == PARAGRAPH_KIND_TEXT then acc
        else if !(p.text == "") then acc ++ [p.text] else acc) acc =
    acc ++ pids.filterMap (fun pid =>
      match pmFind store pid with
      | none => none
      | some p =>
        if !(p.is_heading_like && p.kind == PARAGRAPH_KIND_TEXT) && !(p.text == "")
        then some p.text else none) := by
  induction pids with
  | nil =>
    intro acc
    simp
  | cons pid rest ih =>
    intro acc
    rw [List.foldl_cons, List.filterMap_cons]
    cases hf : pmFind store pid with
    | none =>
      simp only [hf]
      exact ih acc
    | some p =>
      simp only [hf]
      rcases Bool.eq_false_or_eq_true (p.is_heading_like && p.kind == PARAGRAPH_KIND_TEXT)
        with hA | hA
      · rw [if_pos hA,
          if_neg (show ¬ (!(p.is_heading_like && p.kind == PARAGRAPH_KIND_TEXT) &&
            !(p.text == "")) = true by simp [hA])]
        exact ih acc
      · rcases Bool.eq_false_or_eq_true (p.text == "") with hB | hB
        · rw [if_neg (show ¬ (p.is_heading_like && p.kind == PARAGRAPH_KIND_TEXT) = true
              by simp [hA]),
            if_neg (show ¬ (!(p.text == "")) = true by simp [hB]),
            if_neg (show ¬ (!(p.is_heading_like && p.kind == PARAGRAPH_KIND_TEXT) &&
              !(p.text == "")) = true by simp [hB])]
          exact ih acc
        · rw [if_neg (show ¬ (p.is_heading_like && p.kind == PARAGRAPH_KIND_TEXT) = true
              by simp [hA]),
            if_pos (show (!(p.text == "")) = true by simp [hB]),
            if_pos (show (!(p.is_heading_like && p.kind == PARAGRAPH_KIND_TEXT) &&
              !(p.text == "")) = true by simp [hA, hB])]
          rw [ih (acc ++ [p.text]), List.append_assoc]
          rfl

/-- C6: Table flattening.  `flatten_table_to_text` refines the claimed
algorithm (group cells by row index, order a row's cells by column index,
join cells with `" | "` and rows with newlines): it agrees with the
spec-modelled `specFlattenTable` on every table, and on the scenario table
with cells `(0,0,"A")`, `(0,1,"B")`, `(1,0,"C")` it produces
`"A | B\nC"`. -/
theorem c6_table_flattening :
    (∀ t : DocumentTable, flatten_table_to_text t = specFlattenTable t) ∧
    flatten_table_to_text c6Table = "A | B\nC" :=
  ⟨flatten_table_refines, by decide⟩

/-- C9 (amended): the summary blob concatenates the inherited-headings block
and the joined text of the section's non-empty paragraphs that are not
heading-like `text` paragraphs — so table-derived text is included in the
body, contrary to the claim's "neither heading-like nor table-derived". -/
theorem c9_summary_amended (store : List ParagraphRecord) (s : SectionRecord) :
    build_section_text_for_summary store s = amendedSectionSummary store s := by
  simp only [build_section_text_for_summary, amendedSectionSummary]
  rw [summaryBody_foldl]
  simp only [List.nil_append]
  rcases Bool.eq_false_or_eq_true (s.paragraph_ids.filterMap (fun pid =>
      match pmFind store pid with
      | none => none
      | some p =>
        if !(p.is_heading_like && p.kind == PARAGRAPH_KIND_TEXT) && !(p.text == "")
        then some p.text else none)).isEmpty with hE | hE
  · rw [if_pos hE, if_pos hE, List.append_nil]
  · have hne : ¬ ((s.paragraph_ids.filterMap (fun pid =>
        match pmFind store pid with
        | none => none
        | some p =>
          if !(p.is_heading_like && p.kind == PARAGRAPH_KIND_TEXT) && !(p.text == "")
          then some p.text else none)).isEmpty = true) := by
      rw [hE]
      simp
    rw [if_neg hne, if_neg hne]

/-- C9 (counterexample): a section whose only paragraph is table-derived.
`build_section_text_for_summary` returns the flattened table text, while the
claimed rule (body text excludes table-derived paragraphs) would return the
empty string. -/
theorem c9_counterexample :
    (process none "doc" c9Layout).1.map (fun s =>
      (build_section_text_for_summary (process none "doc" c9Layout).2 s,
       claimSectionSummary (process none "doc" c9Layout).2 s)) =
      [("A | B\nC", "")] := by
  decide

/-- C1 (counterexample): a single unmerged paragraph.  Its
`merged_from_ids` trail is `["par_00001"]`, its own id, which is present in
the final paragraph collection — so, as literally stated, provenance closure
fails. -/
theorem c1_counterexample :
    ((process none "doc" c1Layout).2.map (·.paragraph_id) = ["par_00001"] ∧
     (process none "doc" c1Layout).2.map (·.merged_from_ids) = [["par_00001"]]) ∧
    ¬ (∀ p ∈ (process none "doc" c1Layout).2, ∀ id ∈ p.merged_from_ids,
        id ∉ (process none "doc" c1Layout).2.map (·.paragraph_id)) := by
  decide

/-- C2 (counterexample): a layout with zero sections is processed into empty
record collections; no error value exists in the code, so no `EmptyDocument`
error can surface. -/
theorem c2_counterexample :
    process none "doc" c2EmptyLayout = ([], []) := by
  decide

/-- C7: Chunk-merge scenario.  Under the whitespace fallback counter, three
consecutive body-text paragraphs of 20, 30 and 40 tokens (each below the
80-token minimum, 90 combined, under the 350-token maximum) merge into
exactly one surviving paragraph whose text is the three texts newline-joined
and whose trail lists all three source ids. -/
theorem c7_chunk_merge_scenario :
    tokenCount none c7Text1 = 20 ∧ tokenCount none c7Text2 = 30 ∧
    tokenCount none c7Text3 = 40 ∧
    (process none "doc" c7Layout).2.map (fun p => (p.text, p.merged_from_ids)) =
      [(c7Text1 ++ "\n" ++ c7Text2 ++ "\n" ++ c7Text3,
        ["par_00001", "par_00002", "par_00003"])] ∧
    tokenCount none (c7Text1 ++ "\n" ++ c7Text2 ++ "\n" ++ c7Text3) = 90 := by
  decide

/-- Witness for C10 at the merged three-paragraph section. -/
theorem c10_witness :
    tokenCount none (((process none "doc" c7Layout).2.head (by decide)).text) ≤
      MAX_EMBEDDING_CHUNK_TOKENS :=
  c10_merged_chunk_bound none "doc" c7Layout
    ((process none "doc" c7Layout).2.head (by decide))
    (List.head_mem (by decide)) (by decide)

/-- Witness for C8 at a one-section layout with zero body paragraphs. -/
theorem c8_witness :
    1 ≤ (process none "doc" c9Layout).1.length :=
  c8_min_one_section none "doc" c9Layout (by decide)

/-- Witness for C4 at a layout with one section of two 80-token body
paragraphs. -/
theorem c4_witness :
    (process none "doc" c4Layout).1.length = (build_raw_records "doc" c4Layout).1.length ∧
    (process none "doc" c4Layout).2.length = (build_raw_records "doc" c4Layout).2.length ∧
    (∀ p ∈ (process none "doc" c4Layout).2, p.merged_from_ids = [p.paragraph_id]) ∧
    (∀ s ∈ (process none "doc" c4Layout).1, s.merged_from_section_ids = []) :=
  c4_idempotent_on_normalized none "doc" c4Layout (by decide) (by decide)

/-- Witness for the amended C2 at the zero-section layout. -/
theorem c2_witness :
    process none "docB" c2EmptyLayout = ([], []) :=
  c2_empty_document_amended none "docB" c2EmptyLayout (by decide)

/-- Witness for C5: the malformed reference `"/paragraphs/abc"` is skipped
and the remaining valid reference is processed as if it were absent. -/
theorem c5_witness :
    (["/paragraphs/abc", "/paragraphs/0"]).foldl
        (buildElementStep "doc" [⟨some "hi", none, none⟩] [])
        ⟨1, initialSectionRecord "doc" 0, []⟩ =
      (["/paragraphs/0"]).foldl
        (buildElementStep "doc" [⟨some "hi", none, none⟩] [])
        ⟨1, initialSectionRecord "doc" 0, []⟩ :=
  c5_bad_reference_skipped "doc" [⟨some "hi", none, none⟩] []
    ⟨1, initialSectionRecord "doc" 0, []⟩ [] ["/paragraphs/0"] "/paragraphs/abc"
    (Or.inl (by decide))

/-- C5 (counterexample): the reference `"/paragraphs/0\n"` does not end in
the claim's well-formed shape (its last character is a newline), so the claim
classes it as malformed and skipped — yet the program parses it, because the
regex `$` anchor matches just before a single trailing newline, and the
element loop builds a paragraph record from it instead of skipping it. -/
theorem c5_counterexample :
    claimWellFormedRef "/paragraphs/0\n" = false ∧
    parseLayoutElementId "/paragraphs/0\n" = some ⟨PARAGRAPHS, 0⟩ ∧
    (buildElementStep "doc" [⟨some "hi", none, none⟩] []
        ⟨1, initialSectionRecord "doc" 0, []⟩ "/paragraphs/0\n").store.length = 1 := by
  decide

end SplitLayout
